import Mathlib

/-!
Verification of the feather-repl core against its specification.

The Rust sources are embedded shallowly:

* `src/utils.rs`   : `cycle_mu_lambda` (Floyd's tortoise and hare) and
  `iter_diff_index`.  The `while` loops are modelled with an explicit fuel
  (`loopUntil`); the theorems exhibit a sufficient fuel on eventually
  periodic orbits.
* `src/number.rs`  : `DecimalTuple` with `to_rational`, the conversion
  from `BigRational` (decimal long division plus cycle detection), the
  string parser (`FromStr`, regex `DECIMAL_PATTERN`) and `lcp_len`.
  `BigUint`/`BigInt` become `ℕ`/`ℤ`, `BigRational` becomes `ℚ`.
* `src/ast.rs`     : `EstimateContext` with its option DSL, `EvalOptions`,
  `Expr` and `Expr::eval`.  `f64` values are abstracted by a type
  parameter `F` carrying total arithmetic; the platform float parser is a
  function parameter.  Source ranges (`PointerOffset` translated to byte
  offsets at evaluation time) are carried directly as `ℕ × ℕ` pairs.
  The side effect of `ui::estimate` (which prints a frame exactly when
  `opts.do_estimate(ctx)` holds, src/ui.rs) is modelled by returning the
  list of emitted frames.
-/

namespace FeatherRepl

/-! ## src/utils.rs -/

/-- A bounded while-loop: run `step` until `done` holds, giving up (`none`)
after `fuel` checks.  Models the `while` loops of `cycle_mu_lambda`. -/
def loopUntil {σ : Type*} (done : σ → Bool) (step : σ → σ) : ℕ → σ → Option σ
  | 0, _ => none
  | fuel + 1, s => if done s then some s else loopUntil done step fuel (step s)

/-- `cycle_mu_lambda` from `src/utils.rs`: Floyd's tortoise-and-hare over the
orbit of `x0` under `f`.  Phase 1 finds a meeting point (tortoise steps by 1,
hare by 2); phase 2 resets the tortoise to `x0` and steps both by 1 counting
`mu`; phase 3 steps the hare alone counting `lambda`.  Each phase gets `fuel`
iterations. -/
def cycle_mu_lambda {α : Type*} [DecidableEq α] (f : α → α) (fuel : ℕ) (x0 : α) :
    Option (ℕ × ℕ) :=
  match loopUntil (fun p => decide (p.1 = p.2)) (fun p => (f p.1, f (f p.2))) fuel
      (f x0, f (f x0)) with
  | none => none
  | some (_, har) =>
    match loopUntil (fun p : α × α × ℕ => decide (p.1 = p.2.1))
        (fun p => (f p.1, f p.2.1, p.2.2 + 1)) fuel (x0, har, 0) with
    | none => none
    | some (tor, _, mu) =>
      match loopUntil (fun p : α × ℕ => decide (p.1 = tor))
          (fun p => (f p.1, p.2 + 1)) fuel (f tor, 1) with
      | none => none
      | some (_, lambda) => some (mu, lambda)

/-- `IterDiffIndex::iter_diff_index` from `src/utils.rs`: the index of the
first position where the two (zipped, hence truncated) sequences differ. -/
def iterDiffIndex {T : Type*} [DecidableEq T] (l r : List T) : Option ℕ :=
  (l.zip r).findIdx? fun p => decide (p.1 ≠ p.2)

/-! ## src/number.rs -/

/-- `num_bigint::Sign`. -/
inductive Sign where
  | Minus
  | NoSign
  | Plus
deriving DecidableEq

/-- `DecimalTuple` from `src/number.rs`: sign, integer part, non-repeating
fractional digits, repeating block.  Digits are values `0..=9`. -/
structure DecimalTuple where
  sign : Sign
  int : ℕ
  frac_once : List ℕ
  frac_rep : List ℕ
deriving DecidableEq

/-- The `Default` instance of `DecimalTuple` and `DecimalTuple::zero`. -/
def DecimalTuple.zero : DecimalTuple := ⟨Sign.NoSign, 0, [], []⟩

/-- `DecimalTuple::to_rational` (src/number.rs):
`int + once/10^|once| + rep/((10^|rep|-1)·10^|once|)`, the second correction
applied only when the repeating block's numerator is nonzero, then the sign. -/
def DecimalTuple.to_rational (sign : Sign) (int : ℕ) (frac_once frac_rep : List ℕ) : ℚ :=
  let rat_once := frac_once.foldl (fun (p : ℤ × ℤ) (y : ℕ) => (p.1 * 10 + (y : ℤ), p.2 * 10)) (0, 1)
  let rat_rep0 := frac_rep.foldl (fun (p : ℤ × ℤ) (y : ℕ) => (p.1 * 10 + (y : ℤ), p.2 * 10)) (0, 1)
  let rat_rep := if rat_rep0.1 ≠ 0 then (rat_rep0.1, (rat_rep0.2 - 1) * rat_once.2) else rat_rep0
  let mag : ℚ := (int : ℚ) + (rat_once.1 : ℚ) / (rat_once.2 : ℚ) + (rat_rep.1 : ℚ) / (rat_rep.2 : ℚ)
  if sign = Sign.Minus then -mag else mag

/-- `impl From<DecimalTuple> for BigRational`. -/
def DecimalTuple.toRat (d : DecimalTuple) : ℚ :=
  DecimalTuple.to_rational d.sign d.int d.frac_once d.frac_rep

/-- The long-division successor `|x| x * 10 % den` used by
`From<BigRational> for DecimalTuple` (operands are nonnegative, so Rust's
`%` agrees with `Int.emod`). -/
def fracStep (den : ℤ) (x : ℤ) : ℤ := x * 10 % den

/-- The digit-producing core of `From<BigRational> for DecimalTuple`
(src/number.rs): given the fractional part `num/den`, run `cycle_mu_lambda`
on the remainder orbit of `|x| x * 10 % den` starting at `num % den`, and
read the first `mu` quotient digits as `frac_once` and the next `lambda` as
`frac_rep`, clearing a `[0]` repeating block.  `none` when the fuel runs
out; the fuel `den + 1` used below is sufficient (proved later). -/
def fromRatCore (num den : ℤ) (fuel : ℕ) : Option (List ℕ × List ℕ) :=
  let x0 : ℤ := num % den
  match cycle_mu_lambda (fracStep den) fuel x0 with
  | none => none
  | some (mu, lambda) =>
    let dig : ℕ → ℕ := fun k => (((fracStep den)^[k] x0) * 10 / den).toNat
    let frac_once := (List.range mu).map dig
    let frac_rep0 := (List.range lambda).map fun k => dig (mu + k)
    let frac_rep := if frac_rep0 = [0] then [] else frac_rep0
    some (frac_once, frac_rep)

/-- `impl From<BigRational> for DecimalTuple` (src/number.rs): take the sign,
split the magnitude into integer part (`to_integer`, truncation) and
fraction, and long-divide via `fromRatCore`. -/
def DecimalTuple.fromRat (q : ℚ) : DecimalTuple :=
  if q = 0 then DecimalTuple.zero
  else
    let sign := if q < 0 then Sign.Minus else Sign.Plus
    let mag := |q|
    let intPart : ℕ := mag.num.toNat / mag.den
    let frac : ℚ := mag - (intPart : ℚ)
    match fromRatCore frac.num (frac.den : ℤ) (frac.den + 1) with
    | none => DecimalTuple.zero
    | some p => ⟨sign, intPart, p.1, p.2⟩

/-- `DecimalTuple::new`: normalize through the rational value. -/
def DecimalTuple.new (sign : Sign) (int : ℕ) (frac_once frac_rep : List ℕ) : DecimalTuple :=
  DecimalTuple.fromRat (DecimalTuple.to_rational sign int frac_once frac_rep)

/-- Digit value of an ASCII digit character. -/
def digitVal (c : Char) : ℕ := c.toNat - 48

/-- Maximal run of ASCII digits at the head of the character list, as digit
values, plus the rest. -/
def spanDigits : List Char → List ℕ × List Char
  | [] => ([], [])
  | c :: rest =>
    if c.isDigit then
      let p := spanDigits rest
      (digitVal c :: p.1, p.2)
    else ([], c :: rest)

/-- `impl FromStr for DecimalTuple` (src/number.rs), following the anchored
regex `DECIMAL_PATTERN`: optional sign, `INT = -?[0-9]+` (a minus here makes
the `BigUint` parse fail), optional `.` with optional once-digits and an
optional `( digits dots* )` repeating group.  `none` models both
`MatchFailed` and `BigIntError`. -/
def DecimalTuple.fromStr (s : String) : Option DecimalTuple :=
  let p0 : Bool × List Char :=
    match s.data with
    | '+' :: rest => (false, rest)
    | '-' :: rest => (true, rest)
    | cs => (false, cs)
  let neg := p0.1
  match p0.2 with
  | '-' :: _ => none
  | cs =>
    let pInt := spanDigits cs
    if pInt.1 = [] then none
    else
      let step1 : Option (List ℕ × List ℕ × List Char) :=
        match pInt.2 with
        | '.' :: rest =>
          let pOnce := spanDigits rest
          match pOnce.2 with
          | '(' :: rest2 =>
            let pRep := spanDigits rest2
            if pRep.1 = [] then none
            else
              match pRep.2.dropWhile (fun c => c = '.') with
              | ')' :: rest4 => some (pOnce.1, pRep.1, rest4)
              | _ => none
          | _ => some (pOnce.1, [], pOnce.2)
        | other => some ([], [], other)
      match step1 with
      | none => none
      | some (once, rep, rest) =>
        if rest = [] then
          some (DecimalTuple.new (if neg then Sign.Minus else Sign.Plus)
            (pInt.1.foldl (fun a y => a * 10 + y) 0) once rep)
        else none

/-- Decimal digits of `n`, most significant first, `[0]` for zero
(`BigUint::to_string` as digit values). -/
def natDigits (n : ℕ) : List ℕ := (Nat.toDigits 10 n).map digitVal

/-- Repeat `l` cyclically and keep `n` elements (`Iterator::cycle` truncated;
empty input cycles to nothing). -/
def cycleTake (l : List ℕ) (n : ℕ) : List ℕ :=
  if l = [] then [] else ((List.replicate n l).flatten).take n

/-- `DecimalTuple::lcp_len` (src/number.rs).  `46` is the byte `b'.'`,
distinct from every digit value. -/
def DecimalTuple.lcp_len (self other : DecimalTuple) : Option ℕ :=
  if self.sign ≠ other.sign then some 0
  else
    let s_uint_l := natDigits self.int
    let s_uint_r := natDigits other.int
    let tmp :=
      if s_uint_l.length ≠ s_uint_r.length then some 0
      else if self.int ≠ other.int then iterDiffIndex s_uint_l s_uint_r
      else
        let len_l := s_uint_l.length + 1 + self.frac_once.length + self.frac_rep.length
        let len_r := s_uint_r.length + 1 + other.frac_once.length + other.frac_rep.length
        let bound := 2 * max len_l len_r
        let left := (s_uint_l ++ [46] ++ self.frac_once ++ cycleTake self.frac_rep bound
          ++ List.replicate bound 0).take bound
        let right := (s_uint_r ++ [46] ++ other.frac_once ++ cycleTake other.frac_rep bound
          ++ List.replicate bound 0).take bound
        iterDiffIndex left right
    tmp.map fun x => if self.sign = Sign.Minus then x + 1 else x

/-- `DecimalTuple::is_integer`. -/
def DecimalTuple.is_integer (d : DecimalTuple) : Bool :=
  d.frac_once.isEmpty && d.frac_rep.isEmpty

/-! ## src/ast.rs -/

/-- `EstimateContext`: the three estimate flags. -/
structure EstimateContext where
  literal : Bool
  paren : Bool
  binary : Bool
deriving DecidableEq

def CTX_LIT : ℕ := 1 <<< 0
def CTX_PAR : ℕ := 1 <<< 1
def CTX_BIN : ℕ := 1 <<< 2

/-- Bitwise complement on `u32` (Rust `!bits`). -/
def u32not (bits : ℕ) : ℕ := (2 ^ 32 - 1) ^^^ bits

/-- `EstimateContext::set_bits`: overwrite every flag from the bit mask. -/
def EstimateContext.set_bits (_self : EstimateContext) (bits : ℕ) : EstimateContext :=
  { literal := bits &&& CTX_LIT != 0
    paren := bits &&& CTX_PAR != 0
    binary := bits &&& CTX_BIN != 0 }

/-- `EstimateContext::get_bits`. -/
def EstimateContext.get_bits (self : EstimateContext) : ℕ :=
  CTX_LIT * self.literal.toNat ||| CTX_PAR * self.paren.toNat ||| CTX_BIN * self.binary.toNat

/-- One token of the estimate-option DSL: the `match s` inside
`EstimateContext::update` (src/ast.rs).  The boolean records whether the
`unexpected value` warning was printed on the error stream. -/
def EstimateContext.updateToken (self : EstimateContext) (s : String) : EstimateContext × Bool :=
  match s with
  | "lit" => (self.set_bits CTX_LIT, false)
  | "par" => (self.set_bits CTX_PAR, false)
  | "bin" => (self.set_bits CTX_BIN, false)
  | "+lit" => (self.set_bits (self.get_bits ||| CTX_LIT), false)
  | "+par" => (self.set_bits (self.get_bits ||| CTX_PAR), false)
  | "+bin" => (self.set_bits (self.get_bits ||| CTX_BIN), false)
  | "-lit" => (self.set_bits (self.get_bits ||| u32not CTX_LIT), false)
  | "-par" => (self.set_bits (self.get_bits ||| u32not CTX_PAR), false)
  | "-bin" => (self.set_bits (self.get_bits ||| u32not CTX_BIN), false)
  | "each" => (self.set_bits (u32not 0), false)
  | "+each" => (self.set_bits (u32not 0), false)
  | "-each" => (self.set_bits 0, false)
  | _ => (self, true)

/-- `EvalOptions` (src/ast.rs). -/
structure EvalOptions where
  estimate : EstimateContext
deriving DecidableEq

/-- `ExprTy` (src/ast.rs). -/
inductive ExprTy where
  | Literal
  | Binary
  | Paren
deriving DecidableEq

/-- `EvalContext` (src/ast.rs). -/
structure EvalContext where
  expr_ty : ExprTy
  depth : ℕ

/-- `EvalOptions::do_estimate` (src/ast.rs). -/
def EvalOptions.do_estimate (self : EvalOptions) (ctx : EvalContext) : Bool :=
  if ctx.depth = 0 then true
  else
    match ctx.expr_ty with
    | ExprTy.Literal => self.estimate.literal
    | ExprTy.Paren => self.estimate.paren
    | ExprTy.Binary => self.estimate.binary

/-- `LitComponent` (src/ast.rs): the literal's digit string (sign prefix,
optional decimal point) and its exponent. -/
structure LitComponent where
  digits : String
  exponent : ℤ
deriving DecidableEq

/-- `LitComponent::eval`: exact rational value `parse(digits) * 10^exponent`;
the `f64` member comes from the platform float parser, abstracted as the
parameter `parseFloat`.  `DecimalTuple.zero` stands for the `unwrap` panic,
unreachable for parser-produced digit strings. -/
def LitComponent.eval {F : Type*} (parseFloat : String → ℤ → F) (self : LitComponent) : ℚ × F :=
  (((DecimalTuple.fromStr self.digits).getD DecimalTuple.zero).toRat * (10 : ℚ) ^ self.exponent,
    parseFloat self.digits self.exponent)

/-- `EvalError` (src/ast.rs). -/
inductive EvalError where
  | ZeroDivision (range : ℕ × ℕ)
deriving DecidableEq

/-- `Expr` (src/ast.rs).  Ranges are byte-offset pairs; in the source they are
`PointerOffset` ranges translated to byte offsets during evaluation. -/
inductive Expr where
  | Literal (lit : LitComponent) (range : ℕ × ℕ)
  | Mul (lhs rhs : Expr) (opRange : ℕ × ℕ)
  | Div (lhs rhs : Expr) (opRange : ℕ × ℕ)
  | Add (lhs rhs : Expr) (opRange : ℕ × ℕ)
  | Sub (lhs rhs : Expr) (opRange : ℕ × ℕ)
  | Paren (inner : Expr) (range : ℕ × ℕ)
  | NegParen (inner : Expr) (range : ℕ × ℕ)
deriving DecidableEq

/-- The `match self` classifying the node at the top of `Expr::eval`. -/
def Expr.exprTy : Expr → ExprTy
  | .Literal .. => ExprTy.Literal
  | .Add .. | .Sub .. | .Mul .. | .Div .. => ExprTy.Binary
  | .Paren .. | .NegParen .. => ExprTy.Paren

/-- The `estimate(&val, range, s, opts, &ctx)` call at the end of
`Expr::eval`: `ui::estimate` prints one frame exactly when
`opts.do_estimate(ctx)` holds; the embedding appends it to the frame list. -/
def emitFrame {F : Type*} (opts : EvalOptions) (ctx : EvalContext)
    (val : ℚ × F) (range : ℕ × ℕ) (frames : List ((ℚ × F) × (ℕ × ℕ))) :
    Except EvalError ((ℚ × F) × (ℕ × ℕ) × List ((ℚ × F) × (ℕ × ℕ))) :=
  Except.ok (val, range, frames ++ if opts.do_estimate ctx then [(val, range)] else [])

/-- The total `f64` arithmetic, abstracted: multiplication, division,
addition, subtraction and negation on the float stand-in `F`.  Division is
total (IEEE-754 division never traps). -/
structure FloatOps (F : Type*) where
  fmul : F → F → F
  fdiv : F → F → F
  fadd : F → F → F
  fsub : F → F → F
  fneg : F → F

/-- `Expr::eval` (src/ast.rs): recursive evaluation producing the
`(rational, float)` pair, the node's byte range, and the estimate frames
emitted (children first, in evaluation order).  Left operands are evaluated
first; `?` propagates the leftmost error.  Division checks the exact rational
divisor only. -/
def Expr.eval {F : Type*} (ops : FloatOps F)
    (parseFloat : String → ℤ → F) (opts : EvalOptions) :
    Expr → ℕ → Except EvalError ((ℚ × F) × (ℕ × ℕ) × List ((ℚ × F) × (ℕ × ℕ)))
  | .Literal lit range, depth =>
    emitFrame opts ⟨ExprTy.Literal, depth⟩ (lit.eval parseFloat) range []
  | .Mul lhs rhs _, depth =>
    match lhs.eval ops parseFloat opts (depth + 1) with
    | .error e => .error e
    | .ok (lv, lrange, lframes) =>
      match rhs.eval ops parseFloat opts (depth + 1) with
      | .error e => .error e
      | .ok (rv, rrange, rframes) =>
        emitFrame opts ⟨ExprTy.Binary, depth⟩ (lv.1 * rv.1, ops.fmul lv.2 rv.2)
          (lrange.1, rrange.2) (lframes ++ rframes)
  | .Div lhs rhs _, depth =>
    match lhs.eval ops parseFloat opts (depth + 1) with
    | .error e => .error e
    | .ok (lv, lrange, lframes) =>
      match rhs.eval ops parseFloat opts (depth + 1) with
      | .error e => .error e
      | .ok (rv, rrange, rframes) =>
        if rv.1 = 0 then .error (.ZeroDivision (lrange.1, rrange.2))
        else
          emitFrame opts ⟨ExprTy.Binary, depth⟩ (lv.1 / rv.1, ops.fdiv lv.2 rv.2)
            (lrange.1, rrange.2) (lframes ++ rframes)
  | .Add lhs rhs _, depth =>
    match lhs.eval ops parseFloat opts (depth + 1) with
    | .error e => .error e
    | .ok (lv, lrange, lframes) =>
      match rhs.eval ops parseFloat opts (depth + 1) with
      | .error e => .error e
      | .ok (rv, rrange, rframes) =>
        emitFrame opts ⟨ExprTy.Binary, depth⟩ (lv.1 + rv.1, ops.fadd lv.2 rv.2)
          (lrange.1, rrange.2) (lframes ++ rframes)
  | .Sub lhs rhs _, depth =>
    match lhs.eval ops parseFloat opts (depth + 1) with
    | .error e => .error e
    | .ok (lv, lrange, lframes) =>
      match rhs.eval ops parseFloat opts (depth + 1) with
      | .error e => .error e
      | .ok (rv, rrange, rframes) =>
        emitFrame opts ⟨ExprTy.Binary, depth⟩ (lv.1 - rv.1, ops.fsub lv.2 rv.2)
          (lrange.1, rrange.2) (lframes ++ rframes)
  | .Paren inner range, depth =>
    match inner.eval ops parseFloat opts (depth + 1) with
    | .error e => .error e
    | .ok (iv, _, iframes) =>
      emitFrame opts ⟨ExprTy.Paren, depth⟩ iv range iframes
  | .NegParen inner range, depth =>
    match inner.eval ops parseFloat opts (depth + 1) with
    | .error e => .error e
    | .ok (iv, _, iframes) =>
      emitFrame opts ⟨ExprTy.Paren, depth⟩ (-iv.1, ops.fneg iv.2) range iframes

end FeatherRepl

/-! ## Derived definitions used by the theorems -/

namespace FeatherRepl

/-- Value of a most-significant-first digit list. -/
def valD (l : List ℕ) : ℕ := l.foldl (fun a y => a * 10 + y) 0

/-- The fractional value contributed by `(frac_once, frac_rep)`, as
`to_rational` computes it. -/
def fracVal (once rep : List ℕ) : ℚ :=
  (valD once : ℚ) / 10 ^ once.length +
    if valD rep = 0 then 0
    else (valD rep : ℚ) / ((10 ^ rep.length - 1) * 10 ^ once.length)

/-- The digit stream of the long division in `fromRatCore`: the `k`-th
quotient digit. -/
def digSeq (num den : ℤ) (k : ℕ) : ℕ :=
  (((fracStep den)^[k] (num % den)) * 10 / den).toNat

/-- Digits all below ten. -/
def ValidDigits (d : DecimalTuple) : Prop :=
  (∀ a ∈ d.frac_once, a < 10) ∧ (∀ a ∈ d.frac_rep, a < 10)

/-- Lexicographic comparison of `(|frac_once|, |frac_rep|)` pairs. -/
def lenPairLe (p q : ℕ × ℕ) : Prop := p.1 < q.1 ∨ (p.1 = q.1 ∧ p.2 ≤ q.2)

/-- The normalization invariants of the spec (§3): digits in range, no `[0]`
repeating block, canonical zero, sign matching the value's sign, and
`(frac_once, frac_rep)` lexicographically minimal among all digit-valid
tuples with the same rational value. -/
def NormalForm (d : DecimalTuple) : Prop :=
  ValidDigits d ∧ d.frac_rep ≠ [0] ∧
  (d.toRat = 0 → d = DecimalTuple.zero) ∧
  (0 < d.toRat → d.sign = Sign.Plus) ∧ (d.toRat < 0 → d.sign = Sign.Minus) ∧
  ∀ d' : DecimalTuple, ValidDigits d' → d'.toRat = d.toRat →
    lenPairLe (d.frac_once.length, d.frac_rep.length)
      (d'.frac_once.length, d'.frac_rep.length)

end FeatherRepl

/-! ## Helper lemmas: evaluating the embedding on concrete inputs -/

namespace FeatherRepl

theorem to_rational_nat (s : Sign) (i : ℕ) :
    DecimalTuple.to_rational s i [] [] = if s = Sign.Minus then -(i : ℚ) else (i : ℚ) := by
  simp [DecimalTuple.to_rational]

theorem toRat_zero : DecimalTuple.zero.toRat = 0 := by
  simp [DecimalTuple.toRat, DecimalTuple.zero, DecimalTuple.to_rational]

theorem fromRat_zero : DecimalTuple.fromRat 0 = DecimalTuple.zero := by
  simp [DecimalTuple.fromRat]

theorem fromRatCore_zero_one : fromRatCore 0 1 2 = some ([], []) := by decide

theorem fromRat_natCast (i : ℕ) (h : i ≠ 0) :
    DecimalTuple.fromRat (i : ℚ) = ⟨Sign.Plus, i, [], []⟩ := by
  have h0 : (i : ℚ) ≠ 0 := Nat.cast_ne_zero.mpr h
  have hnl : ¬ (i : ℚ) < 0 := not_lt.mpr (by positivity)
  have habs : |(i : ℚ)| = (i : ℚ) := abs_of_nonneg (by positivity)
  simp only [DecimalTuple.fromRat, if_neg h0, if_neg hnl, habs, Rat.num_natCast,
    Rat.den_natCast, Int.toNat_natCast, Nat.div_one, Nat.cast_one, sub_self,
    Rat.num_zero, Rat.den_zero]
  rw [fromRatCore_zero_one]

/-- The positive-case evaluation lemma for `fromRat`: if `q = i + n/d` with
`n/d` the fractional part in lowest terms, the output is assembled from
`fromRatCore n d (d+1)`. -/
theorem fromRat_eq_of_pos (q : ℚ) (i n d : ℕ) (once rep : List ℕ)
    (hq : 0 < q) (hiq : q = (i : ℚ) + (n : ℚ) / (d : ℚ)) (hnd : n < d)
    (hco : Nat.Coprime n d)
    (hcore : fromRatCore (n : ℤ) (d : ℤ) (d + 1) = some (once, rep)) :
    DecimalTuple.fromRat q = ⟨Sign.Plus, i, once, rep⟩ := by
  have hd0 : 0 < d := lt_of_le_of_lt (Nat.zero_le n) hnd
  have hd0' : (0 : ℤ) < (d : ℤ) := by exact_mod_cast hd0
  have hdq : ((d : ℚ)) ≠ 0 := by positivity
  have h0 : q ≠ 0 := ne_of_gt hq
  have hnl : ¬ q < 0 := not_lt.mpr hq.le
  have habs : |q| = q := abs_of_pos hq
  have hq2 : q = (((i * d + n : ℕ) : ℤ) : ℚ) / ((d : ℤ) : ℚ) := by
    rw [hiq]; push_cast; field_simp
  have hcop2 : Nat.Coprime (i * d + n) d := by
    rw [Nat.add_comm, Nat.mul_comm i d]
    exact (Nat.coprime_add_mul_left_left n d i).mpr hco
  have hab2 : (((i * d + n : ℕ) : ℤ)).natAbs.Coprime ((d : ℕ) : ℤ).natAbs := by
    rwa [Int.natAbs_ofNat, Int.natAbs_ofNat]
  have habn : ((n : ℕ) : ℤ).natAbs.Coprime ((d : ℕ) : ℤ).natAbs := by
    rwa [Int.natAbs_ofNat, Int.natAbs_ofNat]
  have hnum : q.num = ((i * d + n : ℕ) : ℤ) := by
    rw [hq2]
    exact Rat.num_div_eq_of_coprime hd0' hab2
  have hden : (q.den : ℤ) = (d : ℤ) := by
    rw [hq2]
    exact Rat.den_div_eq_of_coprime hd0' hab2
  have hden' : q.den = d := by exact_mod_cast hden
  have hint : q.num.toNat / q.den = i := by
    rw [hnum, hden', Int.toNat_natCast, Nat.add_comm, Nat.add_mul_div_right _ _ hd0,
      Nat.div_eq_of_lt hnd, Nat.zero_add]
  have hfrac : q - ((i : ℕ) : ℚ) = ((n : ℤ) : ℚ) / ((d : ℤ) : ℚ) := by
    rw [hiq]; push_cast; ring
  have hfnum : (q - ((i : ℕ) : ℚ)).num = (n : ℤ) := by
    rw [hfrac]
    exact Rat.num_div_eq_of_coprime hd0' habn
  have hfden : ((q - ((i : ℕ) : ℚ)).den : ℤ) = (d : ℤ) := by
    rw [hfrac]
    exact Rat.den_div_eq_of_coprime hd0' habn
  have hfden' : (q - ((i : ℕ) : ℚ)).den = d := by exact_mod_cast hfden
  simp only [DecimalTuple.fromRat, if_neg h0, if_neg hnl, habs, hint, hfnum, hfden', hcore]

theorem fromStr_lit1 : DecimalTuple.fromStr "+1" = some ⟨Sign.Plus, 1, [], []⟩ := by
  have h : DecimalTuple.fromStr "+1" = some (DecimalTuple.new Sign.Plus 1 [] []) := rfl
  rw [h, DecimalTuple.new, to_rational_nat, if_neg (by decide : ¬ Sign.Plus = Sign.Minus),
    fromRat_natCast 1 one_ne_zero]

theorem fromStr_lit2 : DecimalTuple.fromStr "+2" = some ⟨Sign.Plus, 2, [], []⟩ := by
  have h : DecimalTuple.fromStr "+2" = some (DecimalTuple.new Sign.Plus 2 [] []) := rfl
  rw [h, DecimalTuple.new, to_rational_nat, if_neg (by decide : ¬ Sign.Plus = Sign.Minus),
    fromRat_natCast 2 two_ne_zero]

theorem fromStr_lit0 : DecimalTuple.fromStr "+0" = some DecimalTuple.zero := by
  have h : DecimalTuple.fromStr "+0" = some (DecimalTuple.new Sign.Plus 0 [] []) := rfl
  rw [h, DecimalTuple.new, to_rational_nat, if_neg (by decide : ¬ Sign.Plus = Sign.Minus),
    Nat.cast_zero, fromRat_zero]

theorem lit_rat_one : ((DecimalTuple.fromStr "+1").getD DecimalTuple.zero).toRat = 1 := by
  rw [fromStr_lit1]
  simp [DecimalTuple.toRat, to_rational_nat]

theorem lit_rat_two : ((DecimalTuple.fromStr "+2").getD DecimalTuple.zero).toRat = 2 := by
  rw [fromStr_lit2]
  simp [DecimalTuple.toRat, to_rational_nat]

theorem lit_rat_zero : ((DecimalTuple.fromStr "+0").getD DecimalTuple.zero).toRat = 0 := by
  rw [fromStr_lit0]
  simp [toRat_zero]

end FeatherRepl

/-! ## Theorems: the estimate-option DSL (claims C1, C7, C9) -/

namespace FeatherRepl

deriving instance DecidableEq for Except

/-- Concrete float operations for witnesses: the rational field itself
standing in for `f64`. -/
def ratOps : FloatOps ℚ :=
  ⟨fun a b => a * b, fun a b => a / b, fun a b => a + b, fun a b => a - b, fun a => -a⟩

/-- C7 counterexample: the bare token `lit` does not leave the other two
flags unchanged — starting from `(literal, paren, binary) = (F, T, T)` it
resets `paren` (and `binary`) to `false`, because `"lit"` assigns the mask
`CTX_LIT` outright instead of or-ing it in. -/
theorem estimate_token_frame_cex :
    ((EstimateContext.mk false true true).updateToken "lit").1.paren ≠
      (EstimateContext.mk false true true).paren := by
  decide

/-- C7 (amended): the exact per-token frame effect.  `+lit`/`+par`/`+bin`
set only the named flag and leave the other two unchanged; the bare tokens
`lit`/`par`/`bin` set the named flag and clear the other two; `-lit`/`-par`/
`-bin` leave the named flag unchanged and set the other two (the `|` with a
complemented mask). -/
theorem estimate_token_frame_amended (c : EstimateContext) :
    (c.updateToken "+lit").1 = ⟨true, c.paren, c.binary⟩ ∧
    (c.updateToken "+par").1 = ⟨c.literal, true, c.binary⟩ ∧
    (c.updateToken "+bin").1 = ⟨c.literal, c.paren, true⟩ ∧
    (c.updateToken "lit").1 = ⟨true, false, false⟩ ∧
    (c.updateToken "par").1 = ⟨false, true, false⟩ ∧
    (c.updateToken "bin").1 = ⟨false, false, true⟩ ∧
    (c.updateToken "-lit").1 = ⟨c.literal, true, true⟩ ∧
    (c.updateToken "-par").1 = ⟨true, c.paren, true⟩ ∧
    (c.updateToken "-bin").1 = ⟨true, true, c.binary⟩ := by
  obtain ⟨l, p, b⟩ := c
  cases l <;> cases p <;> cases b <;> decide

/-- C9: the undocumented tokens `each` and `+each` set all three estimate
flags, `-each` clears all three, and none of them prints the
`unexpected value` warning (second component `false`). -/
theorem each_token_effects (c : EstimateContext) :
    c.updateToken "each" = (⟨true, true, true⟩, false) ∧
    c.updateToken "+each" = (⟨true, true, true⟩, false) ∧
    c.updateToken "-each" = (⟨false, false, false⟩, false) := by
  obtain ⟨l, p, b⟩ := c
  cases l <;> cases p <;> cases b <;> decide

/-- C1 (code bug): from the default all-false state, the token `-bin`
does not set the binary flag to false leaving the rest alone — it sets
`literal` and `paren` to `true` (because `"-bin"` computes
`get_bits() | !CTX_BIN` instead of `get_bits() & !CTX_BIN`) — and
evaluating `1+2` under the resulting options then emits estimate frames
for both literal children as well as the root, not for the root alone. -/
theorem minus_bin_token_bug :
    (EstimateContext.mk false false false).updateToken "-bin" =
      (⟨true, true, false⟩, false) ∧
    (Expr.Add (.Literal ⟨"+1", 0⟩ (0, 1)) (.Literal ⟨"+2", 0⟩ (2, 3)) (1, 2)).eval
        ratOps (fun _ _ => (0 : ℚ)) ⟨⟨true, true, false⟩⟩ 0 =
      .ok ((3, 0), (0, 3),
        [((1, 0), (0, 1)), ((2, 0), (2, 3)), ((3, 0), (0, 3))]) := by
  refine ⟨by decide, ?_⟩
  simp only [Expr.eval, emitFrame, LitComponent.eval, lit_rat_one, lit_rat_two,
    EvalOptions.do_estimate, ratOps]
  norm_num [Expr.eval, emitFrame]

end FeatherRepl

/-! ## Theorems: lcp_len (claims C5, C10) and the evaluator (claims C3, C8) -/

namespace FeatherRepl

/-- C10: `lcp_len` treats the zero value's `NoSign` as differing from
`Plus` and `Minus`, so zero against any nonzero tuple gives `some 0` in both
argument orders (the early sign test returns before any digit comparison). -/
theorem lcp_len_zero_sign (d : DecimalTuple) (h : d.sign ≠ Sign.NoSign) :
    DecimalTuple.zero.lcp_len d = some 0 ∧ d.lcp_len DecimalTuple.zero = some 0 := by
  constructor
  · rw [DecimalTuple.lcp_len, if_pos (show DecimalTuple.zero.sign ≠ d.sign from Ne.symm h)]
  · rw [DecimalTuple.lcp_len, if_pos (show d.sign ≠ DecimalTuple.zero.sign from h)]

/-- C10 witness: `lcp_len(0, 0.001) = some 0` in both orders. -/
theorem lcp_len_zero_sign_witness :
    DecimalTuple.zero.lcp_len ⟨Sign.Plus, 0, [0, 0, 1], []⟩ = some 0 ∧
    (⟨Sign.Plus, 0, [0, 0, 1], []⟩ : DecimalTuple).lcp_len DecimalTuple.zero = some 0 :=
  lcp_len_zero_sign ⟨Sign.Plus, 0, [0, 0, 1], []⟩ (by decide)

/-- C5 counterexample: for two negative values whose integer parts have
different digit counts, `lcp_len` returns `some 1`, not `some 0` — the final
`+1` for the shared minus sign is applied in this branch too
(`lcp_len(-1, -10) = some 1`, matching the source doc comment and tests). -/
theorem lcp_len_digit_count_cex :
    (⟨Sign.Minus, 1, [], []⟩ : DecimalTuple).lcp_len ⟨Sign.Minus, 10, [], []⟩ = some 1 ∧
    ¬ (⟨Sign.Minus, 1, [], []⟩ : DecimalTuple).lcp_len ⟨Sign.Minus, 10, [], []⟩ = some 0 := by
  decide

/-- C5 (amended): with equal signs and integer parts of different decimal
digit counts, `lcp_len` returns `some 0` for nonnegative signs and `some 1`
when both values are negative (the shared leading minus sign). -/
theorem lcp_len_digit_count_amended (d1 d2 : DecimalTuple) (hs : d1.sign = d2.sign)
    (hlen : (natDigits d1.int).length ≠ (natDigits d2.int).length) :
    d1.lcp_len d2 = some (if d1.sign = Sign.Minus then 1 else 0) := by
  rw [DecimalTuple.lcp_len, if_neg (by simp [hs])]
  simp only [if_pos hlen, Option.map_some]
  split <;> rfl

/-- C5 witness: `lcp_len(1, 10) = some 0` (equal nonnegative signs, digit
counts 1 and 2). -/
theorem lcp_len_digit_count_witness :
    (⟨Sign.Plus, 1, [], []⟩ : DecimalTuple).lcp_len ⟨Sign.Plus, 10, [], []⟩ = some 0 :=
  lcp_len_digit_count_amended ⟨Sign.Plus, 1, [], []⟩ ⟨Sign.Plus, 10, [], []⟩
    (by decide) (by decide)

/-- Evaluating a literal node: the unconditional `.ok` with the literal's
value and stored range, plus its own frame iff the filter says so. -/
theorem eval_literal {F : Type*} (ops : FloatOps F) (pf : String → ℤ → F)
    (opts : EvalOptions) (lit : LitComponent) (range : ℕ × ℕ) (depth : ℕ) :
    (Expr.Literal lit range).eval ops pf opts depth =
      .ok (lit.eval pf, range,
        if opts.do_estimate ⟨ExprTy.Literal, depth⟩ then [(lit.eval pf, range)] else []) := by
  simp [Expr.eval, emitFrame]

/-- C3: for a `Div` node whose operands both evaluate successfully, the
result is `Err(ZeroDivision(range))` precisely when the right operand's
exact rational value is zero, with `range` running from the left operand's
range start to the right operand's range end; for a nonzero rational divisor
the float division `fdiv` is performed unconditionally (no check on the
float operands), and no error is possible. -/
theorem div_zero_division_iff {F : Type*} (ops : FloatOps F) (pf : String → ℤ → F)
    (opts : EvalOptions) (lhs rhs : Expr) (opRange : ℕ × ℕ) (depth : ℕ)
    (lv rv : ℚ × F) (lrange rrange : ℕ × ℕ) (lfr rfr : List ((ℚ × F) × (ℕ × ℕ)))
    (hl : lhs.eval ops pf opts (depth + 1) = .ok (lv, lrange, lfr))
    (hr : rhs.eval ops pf opts (depth + 1) = .ok (rv, rrange, rfr)) :
    ((Expr.Div lhs rhs opRange).eval ops pf opts depth =
        .error (.ZeroDivision (lrange.1, rrange.2)) ↔ rv.1 = 0) ∧
    (rv.1 ≠ 0 → (Expr.Div lhs rhs opRange).eval ops pf opts depth =
      .ok ((lv.1 / rv.1, ops.fdiv lv.2 rv.2), (lrange.1, rrange.2),
        lfr ++ rfr ++ if opts.do_estimate ⟨ExprTy.Binary, depth⟩ then
          [((lv.1 / rv.1, ops.fdiv lv.2 rv.2), (lrange.1, rrange.2))] else [])) := by
  constructor
  · constructor
    · intro h
      by_contra hne
      rw [Expr.eval, hl, hr] at h
      simp only [if_neg hne, emitFrame] at h
      exact Except.noConfusion h
    · intro h
      rw [Expr.eval, hl, hr]
      simp only [if_pos h]
  · intro h
    rw [Expr.eval, hl, hr]
    simp only [if_neg h, emitFrame, List.append_assoc]

/-- C3 witness: evaluating `1 / 0` (literal `1` at bytes 0..1, literal `0`
at bytes 4..5) yields `ZeroDivision` with range `0..5`. -/
theorem div_zero_division_witness :
    (Expr.Div (.Literal ⟨"+1", 0⟩ (0, 1)) (.Literal ⟨"+0", 0⟩ (4, 5)) (2, 3)).eval
        ratOps (fun _ _ => (0 : ℚ)) ⟨⟨false, false, false⟩⟩ 0 =
      .error (.ZeroDivision (0, 5)) := by
  have h1 : (Expr.Literal ⟨"+1", 0⟩ (0, 1)).eval ratOps (fun _ _ => (0 : ℚ))
      ⟨⟨false, false, false⟩⟩ 1 = .ok ((1, 0), (0, 1), []) := by
    rw [eval_literal]
    simp [LitComponent.eval, lit_rat_one, EvalOptions.do_estimate]
  have h0 : (Expr.Literal ⟨"+0", 0⟩ (4, 5)).eval ratOps (fun _ _ => (0 : ℚ))
      ⟨⟨false, false, false⟩⟩ 1 = .ok ((0, 0), (4, 5), []) := by
    rw [eval_literal]
    simp [LitComponent.eval, lit_rat_zero, EvalOptions.do_estimate]
  exact (div_zero_division_iff ratOps (fun _ _ => (0 : ℚ)) ⟨⟨false, false, false⟩⟩
    _ _ (2, 3) 0 (1, 0) (0, 0) (0, 1) (4, 5) [] [] h1 h0).1.mpr rfl

/-- C8: the evaluator classifies `NegParen` as `ExprTy::Paren`, so at
depth > 0 its estimate frame is appended exactly when the `paren` flag is
set; there is no separate flag for negated groups. -/
theorem negparen_paren_flag {F : Type*} (ops : FloatOps F) (pf : String → ℤ → F)
    (opts : EvalOptions) (inner : Expr) (range : ℕ × ℕ) (depth : ℕ)
    (iv : ℚ × F) (irange : ℕ × ℕ) (ifr : List ((ℚ × F) × (ℕ × ℕ)))
    (hd : depth ≠ 0)
    (hin : inner.eval ops pf opts (depth + 1) = .ok (iv, irange, ifr)) :
    (Expr.NegParen inner range).exprTy = ExprTy.Paren ∧
    (Expr.NegParen inner range).eval ops pf opts depth =
      .ok ((-iv.1, ops.fneg iv.2), range,
        ifr ++ if opts.estimate.paren then [((-iv.1, ops.fneg iv.2), range)] else []) := by
  refine ⟨rfl, ?_⟩
  rw [Expr.eval, hin]
  simp only [emitFrame, EvalOptions.do_estimate, if_neg hd]

/-- C8 witness: `-(1)` at depth 1 with only the paren flag set emits
exactly its own frame. -/
theorem negparen_paren_flag_witness :
    (Expr.NegParen (.Literal ⟨"+1", 0⟩ (2, 3)) (0, 4)).exprTy = ExprTy.Paren ∧
    (Expr.NegParen (.Literal ⟨"+1", 0⟩ (2, 3)) (0, 4)).eval ratOps (fun _ _ => (0 : ℚ))
        ⟨⟨false, true, false⟩⟩ 1 =
      .ok ((-1, ratOps.fneg 0), (0, 4),
        [] ++ if (⟨⟨false, true, false⟩⟩ : EvalOptions).estimate.paren then
          [((-1, ratOps.fneg 0), (0, 4))] else []) := by
  have hin : (Expr.Literal ⟨"+1", 0⟩ (2, 3)).eval ratOps (fun _ _ => (0 : ℚ))
      ⟨⟨false, true, false⟩⟩ 2 = .ok ((1, 0), (2, 3), []) := by
    rw [eval_literal]
    simp [LitComponent.eval, lit_rat_one, EvalOptions.do_estimate]
  exact negparen_paren_flag ratOps (fun _ _ => (0 : ℚ)) ⟨⟨false, true, false⟩⟩
    _ (0, 4) 1 (1, 0) (2, 3) [] (by decide) hin

end FeatherRepl

/-! ## Theorems: Floyd's cycle finder (claim C4) -/

namespace FeatherRepl

/-- `loopUntil` returns the state after the least number of steps making
`done` true, given enough fuel. -/
theorem loopUntil_spec {σ : Type*} (done : σ → Bool) (step : σ → σ) :
    ∀ (n : ℕ) (s : σ) (fuel : ℕ), done (step^[n] s) = true →
      (∀ k, k < n → done (step^[k] s) = false) → n < fuel →
      loopUntil done step fuel s = some (step^[n] s)
  | n, _, 0, _, _, hf => absurd hf (Nat.not_lt_zero n)
  | 0, s, fuel + 1, hdone, _, _ => by
    rw [Function.iterate_zero_apply] at hdone ⊢
    rw [loopUntil, if_pos hdone]
  | n + 1, s, fuel + 1, hdone, hleast, hf => by
    have h0 : done s = false := by
      have := hleast 0 (Nat.succ_pos n)
      rwa [Function.iterate_zero_apply] at this
    rw [loopUntil, if_neg (by simp [h0])]
    have hdone' : done (step^[n] (step s)) = true := by
      rwa [← Function.iterate_succ_apply]
    have hleast' : ∀ k, k < n → done (step^[k] (step s)) = false := by
      intro k hk
      rw [← Function.iterate_succ_apply]
      exact hleast (k + 1) (by omega)
    exact loopUntil_spec done step n (step s) fuel hdone' hleast' (by omega)

/-- Phase-1 state after `k` steps: `(x_{k+1}, x_{2k+2})`. -/
theorem phase1_state {α : Type*} (f : α → α) (x0 : α) (k : ℕ) :
    (fun p : α × α => (f p.1, f (f p.2)))^[k] (f x0, f (f x0)) =
      (f^[k + 1] x0, f^[2 * k + 2] x0) := by
  induction k with
  | zero => simp
  | succ n ih =>
    rw [Function.iterate_succ_apply'
      (fun p : α × α => (f p.1, f (f p.2))) n (f x0, f (f x0)), ih]
    dsimp only
    rw [show 2 * (n + 1) + 2 = 2 * n + 2 + 1 + 1 by omega,
      Function.iterate_succ_apply' f (2 * n + 2 + 1) x0,
      Function.iterate_succ_apply' f (2 * n + 2) x0,
      Function.iterate_succ_apply' f (n + 1) x0]

/-- Phase-2 state after `k` steps: `(x_k, f^[k] har, k)`. -/
theorem phase2_state {α : Type*} (f : α → α) (x0 har : α) (k : ℕ) :
    (fun p : α × α × ℕ => (f p.1, f p.2.1, p.2.2 + 1))^[k] (x0, har, 0) =
      (f^[k] x0, f^[k] har, k) := by
  induction k with
  | zero => simp
  | succ n ih =>
    rw [Function.iterate_succ_apply', ih, Function.iterate_succ_apply',
      Function.iterate_succ_apply']

/-- Phase-3 state after `k` steps: `(f^[k+1] tor, k + 1)`. -/
theorem phase3_state {α : Type*} (f : α → α) (tor : α) (k : ℕ) :
    (fun p : α × ℕ => (f p.1, p.2 + 1))^[k] (f tor, 1) = (f^[k + 1] tor, k + 1) := by
  induction k with
  | zero => simp
  | succ n ih =>
    rw [Function.iterate_succ_apply' (fun p : α × ℕ => (f p.1, p.2 + 1)) n (f tor, 1), ih]
    dsimp only
    rw [Function.iterate_succ_apply' f (n + 1) tor]

/-- A period at `a` persists at every later index. -/
theorem iterate_period_shift {α : Type*} (f : α → α) (x0 : α) (a d k : ℕ)
    (h : f^[a + d] x0 = f^[a] x0) : f^[a + k + d] x0 = f^[a + k] x0 := by
  rw [show a + k + d = k + (a + d) by omega, Function.iterate_add_apply, h,
    ← Function.iterate_add_apply, show k + a = a + k by omega]

/-- A period at `a` gives every multiple as a period at `a`. -/
theorem iterate_period_mult {α : Type*} (f : α → α) (x0 : α) (a d j : ℕ)
    (h : f^[a + d] x0 = f^[a] x0) : f^[a + j * d] x0 = f^[a] x0 := by
  induction j with
  | zero => simp
  | succ n ih =>
    rw [show a + (n + 1) * d = a + n * d + d by ring,
      iterate_period_shift f x0 a d (n * d) h, ih]

end FeatherRepl

namespace FeatherRepl

/-- Master lemma for Floyd's algorithm: on an eventually periodic orbit
(period `l ≥ 1` after prefix `m`), `cycle_mu_lambda` with any fuel above
`m + l` returns the lexicographically minimal `(mu, lambda)` with
`f^[mu + lambda] x0 = f^[mu] x0`. -/
theorem cycle_mu_lambda_eq {α : Type*} [DecidableEq α] (f : α → α) (x0 : α)
    (m l : ℕ) (hl : 1 ≤ l) (hml : f^[m + l] x0 = f^[m] x0) :
    ∃ mu lam, 1 ≤ lam ∧ mu ≤ m ∧ lam ≤ l ∧
      f^[mu + lam] x0 = f^[mu] x0 ∧
      (∀ mu' lam', 1 ≤ lam' → f^[mu' + lam'] x0 = f^[mu'] x0 →
        mu ≤ mu' ∧ (mu' = mu → lam ≤ lam')) ∧
      ∀ fuel, m + l < fuel → cycle_mu_lambda f fuel x0 = some (mu, lam) := by
  classical
  have hPex : ∃ a, ∃ d, 1 ≤ d ∧ f^[a + d] x0 = f^[a] x0 := ⟨m, l, hl, hml⟩
  set mu := Nat.find hPex with hmudef
  obtain ⟨l0, hl01, hl0per⟩ := Nat.find_spec hPex
  have hQex : ∃ d, 1 ≤ d ∧ f^[mu + d] x0 = f^[mu] x0 := ⟨l0, hl01, hl0per⟩
  set lam := Nat.find hQex with hlamdef
  obtain ⟨hlam1, hlamper⟩ := Nat.find_spec hQex
  have hB : ∀ a d, 1 ≤ d → f^[a + d] x0 = f^[a] x0 → mu ≤ a := by
    intro a d h1 h2
    exact Nat.find_min' hPex ⟨d, h1, h2⟩
  have hA' : ∀ k j, mu ≤ k → f^[k + j * lam] x0 = f^[k] x0 := by
    intro k j hk
    obtain ⟨k', rfl⟩ := Nat.exists_eq_add_of_le hk
    have h1 : f^[mu + k' + lam] x0 = f^[mu + k'] x0 :=
      iterate_period_shift f x0 mu lam k' hlamper
    exact iterate_period_mult f x0 (mu + k') lam j h1
  have hC : ∀ d, f^[mu + d] x0 = f^[mu] x0 → lam ∣ d := by
    intro d hd
    have hsplit : d % lam + d / lam * lam = d := Nat.mod_add_div' d lam
    have h1 : f^[mu + d % lam + d / lam * lam] x0 = f^[mu + d % lam] x0 :=
      hA' (mu + d % lam) (d / lam) (Nat.le_add_right _ _)
    have h2 : mu + d % lam + d / lam * lam = mu + d := by omega
    have h3 : f^[mu + d % lam] x0 = f^[mu] x0 := by
      rw [← h1, h2, hd]
    by_cases hz : d % lam = 0
    · exact Nat.dvd_of_mod_eq_zero hz
    · exfalso
      have hlt : d % lam < lam := Nat.mod_lt _ hlam1
      rw [hlamdef] at hlt
      exact Nat.find_min hQex hlt ⟨Nat.one_le_iff_ne_zero.mpr hz, h3⟩
  have hE : ∀ a d, 1 ≤ d → f^[a + d] x0 = f^[a] x0 → lam ∣ d := by
    intro a d h1 h2
    have hmua : mu ≤ a := hB a d h1 h2
    have haux : a ≤ a * lam := Nat.le_mul_of_pos_right a hlam1
    have hM : a ≤ mu + a * lam := by omega
    have e1 : f^[mu + d + a * lam] x0 = f^[mu + d] x0 :=
      hA' (mu + d) a (Nat.le_add_right _ _)
    have e2 : f^[mu + a * lam + d] x0 = f^[mu + a * lam] x0 := by
      obtain ⟨c, hc⟩ := Nat.exists_eq_add_of_le hM
      rw [hc]
      exact iterate_period_shift f x0 a d c h2
    have e3 : f^[mu + a * lam] x0 = f^[mu] x0 := hA' mu a le_rfl
    have e4 : f^[mu + d] x0 = f^[mu] x0 := by
      rw [← e1, show mu + d + a * lam = mu + a * lam + d by omega, e2, e3]
    exact hC d e4
  have hmin : ∀ mu' lam', 1 ≤ lam' → f^[mu' + lam'] x0 = f^[mu'] x0 →
      mu ≤ mu' ∧ (mu' = mu → lam ≤ lam') := by
    intro mu' lam' h1 h2
    refine ⟨hB mu' lam' h1 h2, fun he => ?_⟩
    subst he
    exact Nat.le_of_dvd h1 (hC lam' h2)
  have hmu_m : mu ≤ m := hB m l hl hml
  have hlam_l : lam ≤ l := Nat.le_of_dvd hl (hE m l hl hml)
  -- Phase 1: the meeting index
  have hmod : mu % lam < lam := Nat.mod_lt _ hlam1
  have hdm : lam * (mu / lam) + mu % lam = mu := Nat.div_add_mod mu lam
  have hms : lam * (mu / lam + 1) = lam * (mu / lam) + lam := Nat.mul_succ lam (mu / lam)
  have htmu : mu < lam * (mu / lam + 1) := by omega
  have ht1 : 1 ≤ lam * (mu / lam + 1) := by omega
  have htle : lam * (mu / lam + 1) ≤ mu + lam := by omega
  have htper : f^[lam * (mu / lam + 1) + lam * (mu / lam + 1)] x0 =
      f^[lam * (mu / lam + 1)] x0 := by
    have h5 : f^[lam * (mu / lam + 1) + (mu / lam + 1) * lam] x0 =
        f^[lam * (mu / lam + 1)] x0 :=
      hA' (lam * (mu / lam + 1)) (mu / lam + 1) (le_of_lt htmu)
    rwa [show lam * (mu / lam + 1) + (mu / lam + 1) * lam =
      lam * (mu / lam + 1) + lam * (mu / lam + 1) by ring] at h5
  have hK : ∃ k, f^[k + 1] x0 = f^[2 * k + 2] x0 := by
    refine ⟨lam * (mu / lam + 1) - 1, ?_⟩
    rw [show lam * (mu / lam + 1) - 1 + 1 = lam * (mu / lam + 1) by omega,
      show 2 * (lam * (mu / lam + 1) - 1) + 2 =
        lam * (mu / lam + 1) + lam * (mu / lam + 1) by omega]
    exact htper.symm
  set k1 := Nat.find hK with hk1def
  have hk1spec : f^[k1 + 1] x0 = f^[2 * k1 + 2] x0 := Nat.find_spec hK
  have hk1le : k1 ≤ lam * (mu / lam + 1) - 1 := by
    apply Nat.find_min' hK
    rw [show lam * (mu / lam + 1) - 1 + 1 = lam * (mu / lam + 1) by omega,
      show 2 * (lam * (mu / lam + 1) - 1) + 2 =
        lam * (mu / lam + 1) + lam * (mu / lam + 1) by omega]
    exact htper.symm
  have hlamt1 : lam ∣ (k1 + 1) := by
    have h6 : f^[(k1 + 1) + (k1 + 1)] x0 = f^[k1 + 1] x0 := by
      rw [show (k1 + 1) + (k1 + 1) = 2 * k1 + 2 by omega]
      exact hk1spec.symm
    exact hE (k1 + 1) (k1 + 1) (by omega) h6
  -- Phase 2: mu is the least index meeting the hare
  have hPmu : f^[mu] x0 = f^[mu + (2 * k1 + 2)] x0 := by
    obtain ⟨c, hc⟩ : lam ∣ (2 * k1 + 2) := by
      have := hlamt1
      rw [show 2 * k1 + 2 = (k1 + 1) * 2 by ring]
      exact Dvd.dvd.mul_right hlamt1 2
    have h7 : f^[mu + c * lam] x0 = f^[mu] x0 := hA' mu c le_rfl
    rw [show mu + (2 * k1 + 2) = mu + c * lam by rw [hc]; ring]
    exact h7.symm
  have hmuleast : ∀ j, j < mu → ¬ f^[j] x0 = f^[j + (2 * k1 + 2)] x0 := by
    intro j hj hcon
    have h8 : mu ≤ j := hB j (2 * k1 + 2) (by omega) hcon.symm
    omega
  -- Phase 3: lam - 1 is the least rejoining step
  have hR : f^[lam - 1 + 1 + mu] x0 = f^[mu] x0 := by
    rw [show lam - 1 + 1 + mu = mu + lam by omega]
    exact hlamper
  have hRleast : ∀ j, j < lam - 1 → ¬ f^[j + 1 + mu] x0 = f^[mu] x0 := by
    intro j hj hcon
    have h9 : j + 1 < lam := by omega
    rw [hlamdef] at h9
    refine Nat.find_min hQex h9 ⟨by omega, ?_⟩
    rw [show mu + (j + 1) = j + 1 + mu by omega]
    exact hcon
  refine ⟨mu, lam, hlam1, hmu_m, hlam_l, hlamper, hmin, ?_⟩
  intro fuel hfuel
  have e1 : loopUntil (fun p : α × α => decide (p.1 = p.2))
      (fun p => (f p.1, f (f p.2))) fuel (f x0, f (f x0)) =
      some (f^[k1 + 1] x0, f^[2 * k1 + 2] x0) := by
    have h10 := loopUntil_spec (fun p : α × α => decide (p.1 = p.2))
      (fun p => (f p.1, f (f p.2))) k1 (f x0, f (f x0)) fuel
      (by rw [phase1_state]; exact decide_eq_true hk1spec)
      (fun k hk => by rw [phase1_state]; exact decide_eq_false (Nat.find_min hK hk))
      (by omega)
    rwa [phase1_state] at h10
  have e2 : loopUntil (fun p : α × α × ℕ => decide (p.1 = p.2.1))
      (fun p => (f p.1, f p.2.1, p.2.2 + 1)) fuel (x0, f^[2 * k1 + 2] x0, 0) =
      some (f^[mu] x0, f^[mu] (f^[2 * k1 + 2] x0), mu) := by
    have h11 := loopUntil_spec (fun p : α × α × ℕ => decide (p.1 = p.2.1))
      (fun p => (f p.1, f p.2.1, p.2.2 + 1)) mu (x0, f^[2 * k1 + 2] x0, 0) fuel
      (by
        rw [phase2_state]
        refine decide_eq_true ?_
        rw [← Function.iterate_add_apply]
        exact hPmu)
      (fun k hk => by
        rw [phase2_state]
        refine decide_eq_false fun hcon => hmuleast k hk ?_
        rwa [← Function.iterate_add_apply] at hcon)
      (by omega)
    rwa [phase2_state] at h11
  have e3 : loopUntil (fun p : α × ℕ => decide (p.1 = f^[mu] x0))
      (fun p => (f p.1, p.2 + 1)) fuel (f (f^[mu] x0), 1) =
      some (f^[lam - 1 + 1] (f^[mu] x0), lam - 1 + 1) := by
    have h12 := loopUntil_spec (fun p : α × ℕ => decide (p.1 = f^[mu] x0))
      (fun p => (f p.1, p.2 + 1)) (lam - 1) (f (f^[mu] x0), 1) fuel
      (by
        rw [phase3_state]
        refine decide_eq_true ?_
        rw [← Function.iterate_add_apply]
        exact hR)
      (fun k hk => by
        rw [phase3_state]
        refine decide_eq_false fun hcon => hRleast k hk ?_
        rwa [← Function.iterate_add_apply] at hcon)
      (by omega)
    rwa [phase3_state] at h12
  unfold cycle_mu_lambda
  rw [e1]
  dsimp only
  rw [e2]
  dsimp only
  rw [e3]
  dsimp only
  rw [show lam - 1 + 1 = lam by omega]

end FeatherRepl

namespace FeatherRepl

/-- C4: on an eventually periodic orbit, `cycle_mu_lambda` terminates (an
adequate fuel exists, and every larger fuel gives the same answer) and
returns the lexicographically minimal pair `(mu, lambda)` with
`lambda ≥ 1` and `f^[mu + lambda] x0 = f^[mu] x0`; equivalently
`x_{mu+lambda+i} = x_{mu+i}` for every `i ≥ 0`. -/
theorem cycle_mu_lambda_correct {α : Type*} [DecidableEq α] (f : α → α) (x0 : α)
    (h : ∃ m l, 1 ≤ l ∧ f^[m + l] x0 = f^[m] x0) :
    ∃ mu lam, 1 ≤ lam ∧ f^[mu + lam] x0 = f^[mu] x0 ∧
      (∀ i, f^[mu + lam + i] x0 = f^[mu + i] x0) ∧
      (∀ mu' lam', 1 ≤ lam' → f^[mu' + lam'] x0 = f^[mu'] x0 →
        mu ≤ mu' ∧ (mu' = mu → lam ≤ lam')) ∧
      ∃ fuel0, ∀ fuel, fuel0 ≤ fuel → cycle_mu_lambda f fuel x0 = some (mu, lam) := by
  obtain ⟨m, l, hl, hml⟩ := h
  obtain ⟨mu, lam, h1, _, _, h4, h5, h6⟩ := cycle_mu_lambda_eq f x0 m l hl hml
  refine ⟨mu, lam, h1, h4, ?_, h5, ⟨m + l + 1, fun fuel hf => h6 fuel (by omega)⟩⟩
  intro i
  have h7 := iterate_period_shift f x0 mu lam i h4
  rwa [show mu + i + lam = mu + lam + i by omega] at h7

/-- C4 witness: the orbit of `3` under `n ↦ n * 10 % 7` (period 6 from the
start), the exact successor map used for decimal expansion of sevenths. -/
theorem cycle_mu_lambda_correct_witness :
    ∃ mu lam, 1 ≤ lam ∧
      (fun n : ℕ => n * 10 % 7)^[mu + lam] 3 = (fun n : ℕ => n * 10 % 7)^[mu] 3 ∧
      (∀ i, (fun n : ℕ => n * 10 % 7)^[mu + lam + i] 3 =
        (fun n : ℕ => n * 10 % 7)^[mu + i] 3) ∧
      (∀ mu' lam', 1 ≤ lam' →
        (fun n : ℕ => n * 10 % 7)^[mu' + lam'] 3 = (fun n : ℕ => n * 10 % 7)^[mu'] 3 →
        mu ≤ mu' ∧ (mu' = mu → lam ≤ lam')) ∧
      ∃ fuel0, ∀ fuel, fuel0 ≤ fuel →
        cycle_mu_lambda (fun n : ℕ => n * 10 % 7) fuel 3 = some (mu, lam) :=
  cycle_mu_lambda_correct (fun n : ℕ => n * 10 % 7) 3 ⟨0, 6, by decide, by decide⟩

end FeatherRepl

/-! ## Digit-value lemmas and the closed form of to_rational -/

namespace FeatherRepl

theorem valD_from (l : List ℕ) (a : ℕ) :
    l.foldl (fun a y => a * 10 + y) a = a * 10 ^ l.length + valD l := by
  induction l generalizing a with
  | nil => simp [valD]
  | cons y t ih =>
    have hv : valD (y :: t) = y * 10 ^ t.length + valD t := by
      show List.foldl _ (0 * 10 + y) t = _
      rw [ih (0 * 10 + y)]
      ring
    rw [List.foldl_cons, ih (a * 10 + y), hv, List.length_cons]
    ring

theorem valD_cons (y : ℕ) (t : List ℕ) :
    valD (y :: t) = y * 10 ^ t.length + valD t := by
  show List.foldl _ (0 * 10 + y) t = _
  rw [valD_from t (0 * 10 + y)]
  ring

theorem valD_append (l1 l2 : List ℕ) :
    valD (l1 ++ l2) = valD l1 * 10 ^ l2.length + valD l2 := by
  show List.foldl _ _ (l1 ++ l2) = _
  rw [List.foldl_append]
  exact valD_from l2 _

theorem valD_lt (l : List ℕ) (h : ∀ a ∈ l, a < 10) : valD l < 10 ^ l.length := by
  induction l with
  | nil => simp [valD]
  | cons y t ih =>
    have hy : y < 10 := h y (by simp)
    have ht : valD t < 10 ^ t.length := ih fun a ha => h a (by simp [ha])
    rw [valD_cons, List.length_cons, pow_succ]
    nlinarith

theorem valD_eq_zero (l : List ℕ) (h : valD l = 0) : ∀ a ∈ l, a = 0 := by
  induction l with
  | nil => simp
  | cons y t ih =>
    rw [valD_cons] at h
    have hP : 0 < 10 ^ t.length := pow_pos (by norm_num) _
    have h1 : y * 10 ^ t.length = 0 ∧ valD t = 0 := by omega
    have hy : y = 0 := by
      rcases Nat.mul_eq_zero.mp h1.1 with h2 | h2
      · exact h2
      · omega
    intro a ha
    rcases List.mem_cons.mp ha with rfl | ha2
    · exact hy
    · exact ih h1.2 a ha2

end FeatherRepl

namespace FeatherRepl

/-- Quotient/remainder uniqueness for digit blocks. -/
theorem base_digit_unique (P y1 y2 r1 r2 : ℕ) (h1 : r1 < P) (h2 : r2 < P)
    (he : y1 * P + r1 = y2 * P + r2) : y1 = y2 ∧ r1 = r2 := by
  have hP : 0 < P := lt_of_le_of_lt (Nat.zero_le r1) h1
  have e1 : (y1 * P + r1) / P = y1 := by
    rw [Nat.mul_comm y1 P, Nat.mul_add_div hP, Nat.div_eq_of_lt h1, Nat.add_zero]
  have e2 : (y2 * P + r2) / P = y2 := by
    rw [Nat.mul_comm y2 P, Nat.mul_add_div hP, Nat.div_eq_of_lt h2, Nat.add_zero]
  have hy : y1 = y2 := by rw [← e1, ← e2, he]
  constructor
  · exact hy
  · subst hy
    omega

/-- Fixed-length digit lists with digits below ten are determined by their
value. -/
theorem valD_inj (l1 l2 : List ℕ) (hlen : l1.length = l2.length)
    (h1 : ∀ a ∈ l1, a < 10) (h2 : ∀ a ∈ l2, a < 10) (hval : valD l1 = valD l2) :
    l1 = l2 := by
  induction l1 generalizing l2 with
  | nil =>
    cases l2 with
    | nil => rfl
    | cons y t => simp at hlen
  | cons y1 t1 ih =>
    cases l2 with
    | nil => simp at hlen
    | cons y2 t2 =>
      have hlen' : t1.length = t2.length := by simpa using hlen
      rw [valD_cons, valD_cons, hlen'] at hval
      have hb1 : valD t1 < 10 ^ t2.length := by
        rw [← hlen']
        exact valD_lt t1 fun a ha => h1 a (by simp [ha])
      have hb2 : valD t2 < 10 ^ t2.length := valD_lt t2 fun a ha => h2 a (by simp [ha])
      obtain ⟨hy, ht⟩ := base_digit_unique (10 ^ t2.length) y1 y2 _ _ hb1 hb2 hval
      rw [hy, ih t2 hlen' (fun a ha => h1 a (by simp [ha]))
        (fun a ha => h2 a (by simp [ha])) ht]

/-- Every `N < 10^n` is the value of some digit list of length `n`. -/
theorem exists_digit_list (n : ℕ) : ∀ N, N < 10 ^ n →
    ∃ l : List ℕ, l.length = n ∧ (∀ a ∈ l, a < 10) ∧ valD l = N := by
  induction n with
  | zero =>
    intro N hN
    interval_cases N
    exact ⟨[], rfl, by simp, by simp [valD]⟩
  | succ n ih =>
    intro N hN
    have hP : 0 < 10 ^ n := pow_pos (by norm_num) _
    have hy : N / 10 ^ n < 10 := by
      rw [Nat.div_lt_iff_lt_mul hP]
      calc N < 10 ^ (n + 1) := hN
        _ = 10 * 10 ^ n := by ring
        _ = 10 * 10 ^ n := rfl
    have hr : N % 10 ^ n < 10 ^ n := Nat.mod_lt _ hP
    obtain ⟨t, htlen, htd, htv⟩ := ih (N % 10 ^ n) hr
    refine ⟨N / 10 ^ n :: t, by simp [htlen], ?_, ?_⟩
    · intro a ha
      rcases List.mem_cons.mp ha with rfl | ha2
      · exact hy
      · exact htd a ha2
    · rw [valD_cons, htlen, htv]
      have hdm := Nat.mod_add_div' N (10 ^ n)
      omega

/-- Folding the digit pair accumulator. -/
theorem fold_digits (l : List ℕ) (a b : ℤ) :
    l.foldl (fun (p : ℤ × ℤ) (y : ℕ) => (p.1 * 10 + (y : ℤ), p.2 * 10)) (a, b) =
      (a * 10 ^ l.length + (valD l : ℤ), b * 10 ^ l.length) := by
  induction l generalizing a b with
  | nil => simp [valD]
  | cons y t ih =>
    rw [List.foldl_cons, ih, valD_cons, List.length_cons]
    simp only [Prod.mk.injEq]
    constructor
    · push_cast
      ring
    · ring

theorem fold_digits01 (l : List ℕ) :
    l.foldl (fun (p : ℤ × ℤ) (y : ℕ) => (p.1 * 10 + (y : ℤ), p.2 * 10)) ((0 : ℤ), (1 : ℤ)) =
      ((valD l : ℤ), 10 ^ l.length) := by
  rw [fold_digits]
  simp

/-- The closed form of `to_rational`. -/
theorem to_rational_eq (s : Sign) (i : ℕ) (once rep : List ℕ) :
    DecimalTuple.to_rational s i once rep =
      (if s = Sign.Minus then (-1 : ℚ) else 1) * ((i : ℚ) + fracVal once rep) := by
  have hpair : (if ((valD rep : ℕ) : ℤ) ≠ 0 then
        (((valD rep : ℕ) : ℤ), ((10 : ℤ) ^ rep.length - 1) * (10 : ℤ) ^ once.length)
      else (((valD rep : ℕ) : ℤ), (10 : ℤ) ^ rep.length)) =
      (((valD rep : ℕ) : ℤ),
        if valD rep = 0 then (10 : ℤ) ^ rep.length
        else ((10 : ℤ) ^ rep.length - 1) * (10 : ℤ) ^ once.length) := by
    by_cases hz : valD rep = 0
    · rw [if_neg (by simp [hz]), if_pos hz]
    · rw [if_pos (by exact_mod_cast hz), if_neg hz]
  simp only [DecimalTuple.to_rational, fold_digits01, hpair, fracVal]
  by_cases hz : valD rep = 0
  · rw [if_pos hz, if_pos hz, hz]
    cases s <;> (try simp only [reduceIte]) <;> push_cast <;> ring
  · rw [if_neg hz, if_neg hz]
    cases s <;> (try simp only [reduceIte]) <;> push_cast <;> ring

end FeatherRepl

/-! ## The long-division orbit -/

namespace FeatherRepl

/-- The remainder orbit in closed form. -/
theorem fracStep_iterate (num den : ℤ) (k : ℕ) :
    (fracStep den)^[k] (num % den) = (num * 10 ^ k) % den := by
  induction k with
  | zero => simp
  | succ n ih =>
    rw [Function.iterate_succ_apply', ih, fracStep]
    conv_lhs => rw [Int.mul_emod, Int.emod_emod_of_dvd _ dvd_rfl, ← Int.mul_emod]
    rw [show num * 10 ^ n * 10 = num * 10 ^ (n + 1) by ring]

theorem fracStep_iterate_nonneg (num den : ℤ) (hden : 0 < den) (k : ℕ) :
    0 ≤ (fracStep den)^[k] (num % den) := by
  rw [fracStep_iterate]
  exact Int.emod_nonneg _ (ne_of_gt hden)

theorem fracStep_iterate_lt (num den : ℤ) (hden : 0 < den) (k : ℕ) :
    (fracStep den)^[k] (num % den) < den := by
  rw [fracStep_iterate]
  exact Int.emod_lt_of_pos _ hden

/-- Quotient digits are below ten. -/
theorem digSeq_lt (num den : ℤ) (hden : 0 < den) (k : ℕ) : digSeq num den k < 10 := by
  have h1 := fracStep_iterate_nonneg num den hden k
  have h2 := fracStep_iterate_lt num den hden k
  have h3 : (fracStep den)^[k] (num % den) * 10 / den < 10 := by
    rw [Int.ediv_lt_iff_lt_mul hden]
    nlinarith
  rw [digSeq]
  omega

/-- One long-division step: `x_k * 10 = den * digit_k + x_{k+1}`. -/
theorem digSeq_step (num den : ℤ) (hden : 0 < den) (k : ℕ) :
    (fracStep den)^[k] (num % den) * 10 =
      den * (digSeq num den k : ℤ) + (fracStep den)^[k + 1] (num % den) := by
  have h1 := fracStep_iterate_nonneg num den hden k
  have hcast : (digSeq num den k : ℤ) = (fracStep den)^[k] (num % den) * 10 / den := by
    rw [digSeq, Int.toNat_of_nonneg]
    exact Int.ediv_nonneg (by omega) (by omega)
  rw [hcast, Function.iterate_succ_apply']
  rw [show (fracStep den) ((fracStep den)^[k] (num % den)) =
    (fracStep den)^[k] (num % den) * 10 % den from rfl]
  exact (Int.ediv_add_emod _ _).symm

/-- The power invariant of long division:
`num * 10^k = den * (value of the first k digits) + x_k`. -/
theorem digSeq_invariant (num den : ℤ) (hden : 0 < den) (hnum : 0 ≤ num)
    (hlt : num < den) : ∀ k : ℕ,
    num * 10 ^ k =
      den * (valD ((List.range k).map (digSeq num den)) : ℤ) +
        (fracStep den)^[k] (num % den) := by
  intro k
  induction k with
  | zero =>
    simp [valD, Int.emod_eq_of_lt hnum hlt]
  | succ n ih =>
    have hsplit : (List.range (n + 1)).map (digSeq num den) =
        (List.range n).map (digSeq num den) ++ [digSeq num den n] := by
      rw [List.range_succ, List.map_append, List.map_singleton]
    rw [hsplit, valD_append]
    have hv : valD [digSeq num den n] = digSeq num den n := by
      simp [valD]
    rw [hv]
    have hstep := digSeq_step num den hden n
    have : num * 10 ^ (n + 1) = (num * 10 ^ n) * 10 := by ring
    rw [this, ih]
    push_cast
    simp only [List.length_singleton, pow_one]
    nlinarith [hstep]

end FeatherRepl

namespace FeatherRepl

/-- Pigeonhole: the remainder orbit repeats within `den` steps. -/
theorem fracStep_periodic (num den : ℤ) (hden : 0 < den) (hnum : 0 ≤ num)
    (hlt : num < den) :
    ∃ m l, 1 ≤ l ∧ m + l ≤ den.toNat ∧
      (fracStep den)^[m + l] (num % den) = (fracStep den)^[m] (num % den) := by
  have hbound : ∀ k : ℕ, ((fracStep den)^[k] (num % den)).toNat < den.toNat := by
    intro k
    have h1 := fracStep_iterate_nonneg num den hden k
    have h2 := fracStep_iterate_lt num den hden k
    omega
  have hcard : Fintype.card (Fin den.toNat) < Fintype.card (Fin (den.toNat + 1)) := by
    simp
  obtain ⟨a, b, hab, heq⟩ := Fintype.exists_ne_map_eq_of_card_lt
    (fun k : Fin (den.toNat + 1) =>
      (⟨((fracStep den)^[(k : ℕ)] (num % den)).toNat, hbound k⟩ : Fin den.toNat)) hcard
  have hval : (fracStep den)^[(a : ℕ)] (num % den) = (fracStep den)^[(b : ℕ)] (num % den) := by
    have h1 := fracStep_iterate_nonneg num den hden (a : ℕ)
    have h2 := fracStep_iterate_nonneg num den hden (b : ℕ)
    have h3 : ((fracStep den)^[(a : ℕ)] (num % den)).toNat =
        ((fracStep den)^[(b : ℕ)] (num % den)).toNat := congrArg Fin.val heq
    omega
  have hne : (a : ℕ) ≠ (b : ℕ) := fun h => hab (Fin.ext h)
  rcases Nat.lt_or_ge (a : ℕ) (b : ℕ) with hl | hg
  · refine ⟨(a : ℕ), (b : ℕ) - (a : ℕ), by omega, by omega, ?_⟩
    rw [show (a : ℕ) + ((b : ℕ) - (a : ℕ)) = (b : ℕ) by omega]
    exact hval.symm
  · have hl2 : (b : ℕ) < (a : ℕ) := by omega
    refine ⟨(b : ℕ), (a : ℕ) - (b : ℕ), by omega, by omega, ?_⟩
    rw [show (b : ℕ) + ((a : ℕ) - (b : ℕ)) = (a : ℕ) by omega]
    exact hval

/-- What `fromRatCore` with the fuel `den + 1` returns: the minimal-cycle
digit blocks. -/
theorem fromRatCore_eq (num den : ℤ) (hden : 0 < den) (hnum : 0 ≤ num)
    (hlt : num < den) :
    ∃ mu lam, 1 ≤ lam ∧
      (fracStep den)^[mu + lam] (num % den) = (fracStep den)^[mu] (num % den) ∧
      (∀ mu' lam', 1 ≤ lam' →
        (fracStep den)^[mu' + lam'] (num % den) = (fracStep den)^[mu'] (num % den) →
        mu ≤ mu' ∧ (mu' = mu → lam ≤ lam')) ∧
      fromRatCore num den (den.toNat + 1) = some
        ((List.range mu).map (digSeq num den),
          if (List.range lam).map (fun k => digSeq num den (mu + k)) = [0] then []
          else (List.range lam).map (fun k => digSeq num den (mu + k))) := by
  obtain ⟨m, l, hl1, hml, hper⟩ := fracStep_periodic num den hden hnum hlt
  obtain ⟨mu, lam, h1, _, _, h4, h5, h6⟩ :=
    cycle_mu_lambda_eq (fracStep den) (num % den) m l hl1 hper
  refine ⟨mu, lam, h1, h4, h5, ?_⟩
  rw [fromRatCore]
  rw [h6 (den.toNat + 1) (by omega)]
  rfl

end FeatherRepl


namespace FeatherRepl

/-- If every digit of the repeating block is zero, the remainder at the
cycle start is zero. -/
theorem rep_digits_zero (num den : ℤ) (hden : 0 < den) (mu lam : ℕ) (h1 : 1 ≤ lam)
    (hcyc : (fracStep den)^[mu + lam] (num % den) = (fracStep den)^[mu] (num % den))
    (hz : ∀ k, k < lam → digSeq num den (mu + k) = 0) :
    (fracStep den)^[mu] (num % den) = 0 := by
  have hgrow : ∀ j, j ≤ lam →
      (fracStep den)^[mu + j] (num % den) =
        10 ^ j * (fracStep den)^[mu] (num % den) := by
    intro j
    induction j with
    | zero => intro _; simp
    | succ n ih =>
      intro hle
      have hstep := digSeq_step num den hden (mu + n)
      rw [hz n (by omega)] at hstep
      have hx : (fracStep den)^[mu + n + 1] (num % den) =
          (fracStep den)^[mu + n] (num % den) * 10 := by
        push_cast at hstep
        linarith
      rw [show mu + (n + 1) = mu + n + 1 by omega, hx, ih (by omega)]
      ring
  have h2 := hgrow lam le_rfl
  rw [hcyc] at h2
  have h3 : ((10 : ℤ) ^ lam - 1) * (fracStep den)^[mu] (num % den) = 0 := by linarith
  have h4 : (10 : ℤ) ^ lam ≠ 1 := by
    have h5 : (10 : ℤ) ^ 1 ≤ 10 ^ lam := pow_le_pow_right (by norm_num) h1
    rw [pow_one] at h5
    omega
  rcases mul_eq_zero.mp h3 with h5 | h5
  · exfalso
    omega
  · exact h5

/-- Clearing a `[0]` repeating block does not change the fractional value. -/
theorem fracVal_clear (once rep : List ℕ) :
    fracVal once (if rep = [0] then [] else rep) = fracVal once rep := by
  by_cases h : rep = [0]
  · rw [if_pos h, h]
    simp [fracVal, valD]
  · rw [if_neg h]

/-- The digit blocks produced by long division represent exactly `num/den`. -/
theorem digits_fracVal (num den : ℤ) (hden : 0 < den) (hnum : 0 ≤ num)
    (hlt : num < den) (mu lam : ℕ) (h1 : 1 ≤ lam)
    (hcyc : (fracStep den)^[mu + lam] (num % den) = (fracStep den)^[mu] (num % den)) :
    fracVal ((List.range mu).map (digSeq num den))
      ((List.range lam).map fun k => digSeq num den (mu + k)) = (num : ℚ) / (den : ℚ) := by
  have hlen1 : ((List.range mu).map (digSeq num den)).length = mu := by simp
  have hlen2 : ((List.range lam).map fun k => digSeq num den (mu + k)).length = lam := by
    simp
  have hdenQ : (0 : ℚ) < (den : ℚ) := by exact_mod_cast hden
  have hpowQ : (0 : ℚ) < (10 : ℚ) ^ mu := by positivity
  have hInv := digSeq_invariant num den hden hnum hlt mu
  by_cases hz : valD ((List.range lam).map fun k => digSeq num den (mu + k)) = 0
  · have hzz : ∀ k, k < lam → digSeq num den (mu + k) = 0 := by
      intro k hk
      refine valD_eq_zero _ hz _ ?_
      exact List.mem_map_of_mem _ (List.mem_range.mpr hk)
    have hx0 : (fracStep den)^[mu] (num % den) = 0 :=
      rep_digits_zero num den hden mu lam h1 hcyc hzz
    rw [hx0] at hInv
    have hZ : num * 10 ^ mu =
        den * (valD ((List.range mu).map (digSeq num den)) : ℤ) := by
      linarith
    have hQ : (num : ℚ) * 10 ^ mu =
        (den : ℚ) * (valD ((List.range mu).map (digSeq num den)) : ℚ) := by
      exact_mod_cast hZ
    rw [fracVal, if_pos hz, hlen1, add_zero, div_eq_div_iff hpowQ.ne' hdenQ.ne']
    linear_combination -hQ
  · have hInv2 := digSeq_invariant num den hden hnum hlt (mu + lam)
    have hsplitL : (List.range (mu + lam)).map (digSeq num den) =
        (List.range mu).map (digSeq num den) ++
          (List.range lam).map fun k => digSeq num den (mu + k) := by
      rw [List.range_add, List.map_append, List.map_map]
      rfl
    rw [hsplitL, valD_append, hlen2, hcyc] at hInv2
    have h10 : (1 : ℚ) < (10 : ℚ) ^ lam := by
      calc (1 : ℚ) < 10 := by norm_num
      _ = 10 ^ 1 := (pow_one 10).symm
      _ ≤ 10 ^ lam := pow_le_pow_right (by norm_num) h1
    have h10' : ((10 : ℚ) ^ lam - 1) ≠ 0 := by linarith
    have hZ : num * 10 ^ mu * ((10 : ℤ) ^ lam - 1) =
        den * ((valD ((List.range mu).map (digSeq num den)) : ℤ) * (10 ^ lam - 1) +
          (valD ((List.range lam).map fun k => digSeq num den (mu + k)) : ℤ)) := by
      push_cast at hInv2
      linear_combination hInv2 - hInv
    have hQ : (num : ℚ) * 10 ^ mu * ((10 : ℚ) ^ lam - 1) =
        (den : ℚ) * ((valD ((List.range mu).map (digSeq num den)) : ℚ) * (10 ^ lam - 1) +
          (valD ((List.range lam).map fun k => digSeq num den (mu + k)) : ℚ)) := by
      exact_mod_cast hZ
    rw [fracVal, if_neg hz, hlen1, hlen2]
    rw [div_add_div _ _ hpowQ.ne' (by positivity), div_eq_div_iff (by positivity) hdenQ.ne']
    linear_combination (-(10 : ℚ) ^ mu) * hQ

end FeatherRepl

namespace FeatherRepl

/-- The fractional value of the digit blocks returned by `fromRatCore`. -/
theorem fromRatCore_fracVal (num den : ℤ) (hden : 0 < den) (hnum : 0 ≤ num)
    (hlt : num < den) (once rep : List ℕ)
    (h : fromRatCore num den (den.toNat + 1) = some (once, rep)) :
    fracVal once rep = (num : ℚ) / (den : ℚ) := by
  obtain ⟨mu, lam, h1, hcyc, _, hout⟩ := fromRatCore_eq num den hden hnum hlt
  have h2 := Option.some.inj (h.symm.trans hout)
  have ho : once = (List.range mu).map (digSeq num den) := congrArg Prod.fst h2
  have hr : rep = if (List.range lam).map (fun k => digSeq num den (mu + k)) = [0] then []
      else (List.range lam).map (fun k => digSeq num den (mu + k)) := congrArg Prod.snd h2
  rw [ho, hr, fracVal_clear]
  exact digits_fracVal num den hden hnum hlt mu lam h1 hcyc

/-- Assembling `fromRat` in the nonzero case from a `fromRatCore` result. -/
theorem fromRat_eq_assemble (q : ℚ) (hq : q ≠ 0) (once rep : List ℕ)
    (h : fromRatCore (|q| - ((|q|.num.toNat / |q|.den : ℕ) : ℚ)).num
        (((|q| - ((|q|.num.toNat / |q|.den : ℕ) : ℚ)).den : ℕ) : ℤ)
        ((|q| - ((|q|.num.toNat / |q|.den : ℕ) : ℚ)).den + 1) = some (once, rep)) :
    DecimalTuple.fromRat q =
      ⟨if q < 0 then Sign.Minus else Sign.Plus, |q|.num.toNat / |q|.den, once, rep⟩ := by
  simp only [DecimalTuple.fromRat, if_neg hq, h]

theorem toRat_mk (s : Sign) (i : ℕ) (o r : List ℕ) :
    (DecimalTuple.mk s i o r).toRat = DecimalTuple.to_rational s i o r := rfl

/-- Value round-trip: converting a rational to a `DecimalTuple` and back
gives the same rational. -/
theorem toRat_fromRat (q : ℚ) : (DecimalTuple.fromRat q).toRat = q := by
  by_cases hq : q = 0
  · rw [hq, fromRat_zero, toRat_zero]
  · have habs0 : 0 < |q| := abs_pos.mpr hq
    have hnn : 0 ≤ |q|.num := Rat.num_nonneg.mpr habs0.le
    have hiZ : ((|q|.num.toNat / |q|.den : ℕ) : ℤ) = ⌊|q|⌋ := by
      conv_rhs => rw [← Rat.num_div_den |q|]
      rw [Rat.floor_intCast_div_natCast, Int.natCast_div, Int.toNat_of_nonneg hnn]
    have hiQ : ((|q|.num.toNat / |q|.den : ℕ) : ℚ) = ((⌊|q|⌋ : ℤ) : ℚ) := by
      rw [← hiZ]
      norm_cast
    have hfr : |q| - ((|q|.num.toNat / |q|.den : ℕ) : ℚ) = Int.fract |q| := by
      rw [hiQ]
      exact Int.self_sub_floor |q|
    have hfnn : 0 ≤ Int.fract |q| := Int.fract_nonneg _
    have hflt : Int.fract |q| < 1 := Int.fract_lt_one _
    have hfdpos : (0 : ℤ) < ((Int.fract |q|).den : ℤ) := by
      exact_mod_cast (Int.fract |q|).pos
    have hfnum : 0 ≤ (Int.fract |q|).num := Rat.num_nonneg.mpr hfnn
    have hfnd : (Int.fract |q|).num < ((Int.fract |q|).den : ℤ) :=
      Rat.lt_one_iff_num_lt_denom.mp hflt
    obtain ⟨mu, lam, h1, hcyc, hmin, hout⟩ :=
      fromRatCore_eq (Int.fract |q|).num ((Int.fract |q|).den : ℤ) hfdpos hfnum hfnd
    rw [Int.toNat_natCast] at hout
    rw [← hfr] at hout
    have hasm := fromRat_eq_assemble q hq _ _ hout
    rw [hasm, toRat_mk, to_rational_eq, fracVal_clear, hfr]
    have hfv := digits_fracVal (Int.fract |q|).num ((Int.fract |q|).den : ℤ)
      hfdpos hfnum hfnd mu lam h1 hcyc
    rw [hfv]
    have hfrac : ((Int.fract |q|).num : ℚ) / (((Int.fract |q|).den : ℤ) : ℚ) =
        Int.fract |q| := by
      push_cast
      exact Rat.num_div_den _
    rw [hfrac, hiQ]
    have hsum : ((⌊|q|⌋ : ℤ) : ℚ) + Int.fract |q| = |q| := Int.floor_add_fract |q|
    rw [hsum]
    by_cases hneg : q < 0
    · rw [if_pos hneg, if_pos rfl, abs_of_neg hneg]
      ring
    · rw [if_neg hneg]
      rw [if_neg (by decide : ¬ Sign.Plus = Sign.Minus)]
      rw [abs_of_nonneg (not_lt.mp hneg), one_mul]

end FeatherRepl

namespace FeatherRepl

theorem fracVal_nil_nil : fracVal [] [] = 0 := by
  norm_num [fracVal, valD]

theorem lenPairLe_zero (p : ℕ × ℕ) : lenPairLe (0, 0) p := by
  rcases Nat.eq_zero_or_pos p.1 with h | h
  · exact Or.inr ⟨h.symm, Nat.zero_le _⟩
  · exact Or.inl h

theorem fracVal_nonneg (o r : List ℕ) : 0 ≤ fracVal o r := by
  rw [fracVal]
  by_cases hW : valD r = 0
  · rw [if_pos hW, add_zero]
    positivity
  · have hrne : r ≠ [] := fun h => hW (by rw [h]; rfl)
    have hb : 1 ≤ r.length := List.length_pos.mpr hrne
    have hP : (1 : ℚ) < 10 ^ r.length := by
      calc (1 : ℚ) < 10 := by norm_num
      _ = 10 ^ 1 := (pow_one 10).symm
      _ ≤ 10 ^ r.length := pow_le_pow_right (by norm_num) hb
    rw [if_neg hW]
    have h1 : (0 : ℚ) ≤ (valD o : ℚ) / 10 ^ o.length := by positivity
    have h2 : (0 : ℚ) ≤ (valD r : ℚ) / ((10 ^ r.length - 1) * 10 ^ o.length) := by
      apply div_nonneg (by positivity)
      have hX : (0 : ℚ) < 10 ^ o.length := by positivity
      nlinarith
    linarith

theorem fracVal_le_one (o r : List ℕ) (ho : ∀ a ∈ o, a < 10) (hr : ∀ a ∈ r, a < 10) :
    fracVal o r ≤ 1 := by
  have hV := valD_lt o ho
  have hVQ : (valD o : ℚ) + 1 ≤ 10 ^ o.length := by exact_mod_cast hV
  have hXpos : (0 : ℚ) < 10 ^ o.length := by positivity
  by_cases hW : valD r = 0
  · rw [fracVal, if_pos hW, add_zero, div_le_one hXpos]
    linarith
  · have hrne : r ≠ [] := fun h => hW (by rw [h]; rfl)
    have hb : 1 ≤ r.length := List.length_pos.mpr hrne
    have hWlt := valD_lt r hr
    have hWQ : (valD r : ℚ) + 1 ≤ 10 ^ r.length := by exact_mod_cast hWlt
    have hP : (1 : ℚ) < 10 ^ r.length := by
      calc (1 : ℚ) < 10 := by norm_num
      _ = 10 ^ 1 := (pow_one 10).symm
      _ ≤ 10 ^ r.length := pow_le_pow_right (by norm_num) hb
    have hPpos : (0 : ℚ) < 10 ^ r.length - 1 := by linarith
    rw [fracVal, if_neg hW]
    rw [div_add_div _ _ (ne_of_gt hXpos) (ne_of_gt (mul_pos hPpos hXpos)),
      div_le_one (mul_pos hXpos (mul_pos hPpos hXpos))]
    have hVle : (valD o : ℚ) ≤ 10 ^ o.length - 1 := by linarith
    have hWle : (valD r : ℚ) ≤ 10 ^ r.length - 1 := by linarith
    have h1 : (valD o : ℚ) * ((10 ^ r.length - 1) * 10 ^ o.length) ≤
        (10 ^ o.length - 1) * ((10 ^ r.length - 1) * 10 ^ o.length) :=
      mul_le_mul_of_nonneg_right hVle (le_of_lt (mul_pos hPpos hXpos))
    have h2 : (10 ^ o.length : ℚ) * (valD r : ℚ) ≤ 10 ^ o.length * (10 ^ r.length - 1) :=
      mul_le_mul_of_nonneg_left hWle (le_of_lt hXpos)
    nlinarith [h1, h2]

end FeatherRepl

namespace FeatherRepl

/-- Under the minimality invariant, a repeating block of value zero must be
empty. -/
theorem normalForm_rep_empty (d : DecimalTuple) (h : NormalForm d)
    (hW : valD d.frac_rep = 0) : d.frac_rep = [] := by
  have hvd' : ValidDigits ⟨d.sign, d.int, d.frac_once, []⟩ := by
    refine ⟨h.1.1, ?_⟩
    intro a ha
    cases ha
  have hfv : fracVal d.frac_once [] = fracVal d.frac_once d.frac_rep := by
    rw [fracVal, fracVal, if_pos hW, if_pos (show valD ([] : List ℕ) = 0 from rfl)]
  have hval : DecimalTuple.toRat ⟨d.sign, d.int, d.frac_once, []⟩ = d.toRat := by
    rw [toRat_mk, to_rational_eq, DecimalTuple.toRat, to_rational_eq, hfv]
  have hm := h.2.2.2.2.2 _ hvd' hval
  rcases hm with h1 | ⟨h1, h2⟩
  · exact absurd h1 (lt_irrefl _)
  · exact List.length_eq_zero.mp (Nat.le_zero.mp h2)

/-- Under the minimality invariant, the fractional value is strictly below
one (no all-nines representations). -/
theorem fracVal_lt_one_of_min (d : DecimalTuple) (h : NormalForm d) :
    fracVal d.frac_once d.frac_rep < 1 := by
  have hle := fracVal_le_one _ _ h.1.1 h.1.2
  rcases lt_or_eq_of_le hle with hlt | heq
  · exact hlt
  · exfalso
    have hvd' : ValidDigits ⟨d.sign, d.int + 1, [], []⟩ := by
      constructor <;> (intro a ha; cases ha)
    have hval : DecimalTuple.toRat ⟨d.sign, d.int + 1, [], []⟩ = d.toRat := by
      rw [toRat_mk, to_rational_eq, DecimalTuple.toRat, to_rational_eq,
        fracVal_nil_nil, heq]
      push_cast
      ring
    have hm := h.2.2.2.2.2 _ hvd' hval
    rcases hm with h1 | ⟨h1, h2⟩
    · exact absurd h1 (Nat.not_lt.mpr (Nat.zero_le _))
    · have ho : d.frac_once = [] := List.length_eq_zero.mp h1
      have hrr : d.frac_rep = [] := List.length_eq_zero.mp (Nat.le_zero.mp h2)
      rw [ho, hrr, fracVal_nil_nil] at heq
      norm_num at heq

end FeatherRepl

namespace FeatherRepl

/-- Single-fraction form of `fracVal` when the repeating block has nonzero
value. -/
theorem fracVal_ne_zero_eq (o r : List ℕ) (hW : valD r ≠ 0) :
    fracVal o r = ((valD o : ℚ) * (10 ^ r.length - 1) + valD r) /
      ((10 ^ r.length - 1) * 10 ^ o.length) := by
  have hrne : r ≠ [] := fun h => hW (by rw [h]; rfl)
  have hb : 1 ≤ r.length := List.length_pos.mpr hrne
  have hP : (1 : ℚ) < 10 ^ r.length := by
    calc (1 : ℚ) < 10 := by norm_num
    _ = 10 ^ 1 := (pow_one 10).symm
    _ ≤ 10 ^ r.length := pow_le_pow_right (by norm_num) hb
  have hP0 : ((10 : ℚ) ^ r.length - 1) ≠ 0 := by linarith
  have hX0 : ((10 : ℚ) ^ o.length) ≠ 0 := by positivity
  rw [fracVal, if_neg hW]
  field_simp
  ring

/-- Two normalized tuples with the same rational value are equal. -/
theorem normalForm_unique (d d' : DecimalTuple) (hd : NormalForm d)
    (hd' : NormalForm d') (hval : d.toRat = d'.toRat) : d = d' := by
  by_cases h0 : d.toRat = 0
  · rw [hd.2.2.1 h0, hd'.2.2.1 (hval ▸ h0)]
  · have hmin := hd.2.2.2.2.2 d' hd'.1 hval.symm
    have hmin' := hd'.2.2.2.2.2 d hd.1 hval
    have hlen : d.frac_once.length = d'.frac_once.length ∧
        d.frac_rep.length = d'.frac_rep.length := by
      rcases hmin with h1 | ⟨h1, h2⟩ <;> rcases hmin' with h3 | ⟨h3, h4⟩ <;> omega
    have hs : d.sign = d'.sign := by
      rcases lt_trichotomy d.toRat 0 with hlt | he | hgt
      · rw [hd.2.2.2.2.1 hlt, hd'.2.2.2.2.1 (hval ▸ hlt)]
      · exact absurd he h0
      · rw [hd.2.2.2.1 hgt, hd'.2.2.2.1 (hval ▸ hgt)]
    have hf := fracVal_lt_one_of_min d hd
    have hf' := fracVal_lt_one_of_min d' hd'
    have hf0 := fracVal_nonneg d.frac_once d.frac_rep
    have hf0' := fracVal_nonneg d'.frac_once d'.frac_rep
    have hveq : (d.int : ℚ) + fracVal d.frac_once d.frac_rep =
        (d'.int : ℚ) + fracVal d'.frac_once d'.frac_rep := by
      have e1 : d.toRat = (if d.sign = Sign.Minus then (-1 : ℚ) else 1) *
          ((d.int : ℚ) + fracVal d.frac_once d.frac_rep) := by
        rw [DecimalTuple.toRat, to_rational_eq]
      have e2 : d'.toRat = (if d'.sign = Sign.Minus then (-1 : ℚ) else 1) *
          ((d'.int : ℚ) + fracVal d'.frac_once d'.frac_rep) := by
        rw [DecimalTuple.toRat, to_rational_eq]
      rw [e1, e2, hs] at hval
      by_cases hsm : d'.sign = Sign.Minus
      · rw [if_pos hsm] at hval
        linarith
      · rw [if_neg hsm] at hval
        linarith
    have hint : d.int = d'.int := by
      have h1 : ⌊(d.int : ℚ) + fracVal d.frac_once d.frac_rep⌋ = (d.int : ℤ) := by
        rw [add_comm, Int.floor_add_nat,
          Int.floor_eq_zero_iff.mpr (Set.mem_Ico.mpr ⟨hf0, hf⟩), zero_add]
      have h2 : ⌊(d'.int : ℚ) + fracVal d'.frac_once d'.frac_rep⌋ = (d'.int : ℤ) := by
        rw [add_comm, Int.floor_add_nat,
          Int.floor_eq_zero_iff.mpr (Set.mem_Ico.mpr ⟨hf0', hf'⟩), zero_add]
      have h3 : (d.int : ℤ) = (d'.int : ℤ) := by
        rw [← h1, ← h2, hveq]
      exact_mod_cast h3
    have hfv : fracVal d.frac_once d.frac_rep = fracVal d'.frac_once d'.frac_rep := by
      have hc : (d.int : ℚ) = (d'.int : ℚ) := by exact_mod_cast hint
      linarith
    have hdig : d.frac_once = d'.frac_once ∧ d.frac_rep = d'.frac_rep := by
      by_cases hW : valD d.frac_rep = 0
      · have hr1 : d.frac_rep = [] := normalForm_rep_empty d hd hW
        have hr2 : d'.frac_rep = [] := by
          rw [hr1] at hlen
          exact List.length_eq_zero.mp hlen.2.symm
        rw [hr1, hr2] at hfv
        rw [fracVal, fracVal, if_pos (show valD ([] : List ℕ) = 0 from rfl),
          if_pos (show valD ([] : List ℕ) = 0 from rfl), add_zero, add_zero,
          hlen.1] at hfv
        have hX : ((10 : ℚ) ^ d'.frac_once.length) ≠ 0 := by positivity
        rw [div_eq_div_iff hX hX] at hfv
        have hv : (valD d.frac_once : ℚ) = valD d'.frac_once :=
          mul_right_cancel₀ hX hfv
        have hvn : valD d.frac_once = valD d'.frac_once := by exact_mod_cast hv
        exact ⟨valD_inj _ _ hlen.1 hd.1.1 hd'.1.1 hvn, hr1.trans hr2.symm⟩
      · have hW' : valD d'.frac_rep ≠ 0 := by
          intro hz
          have hr2 : d'.frac_rep = [] := normalForm_rep_empty d' hd' hz
          have hr1 : d.frac_rep = [] := by
            rw [hr2] at hlen
            exact List.length_eq_zero.mp hlen.2
          exact hW (by rw [hr1]; rfl)
        rw [fracVal_ne_zero_eq _ _ hW, fracVal_ne_zero_eq _ _ hW', hlen.1, hlen.2] at hfv
        have hb : 1 ≤ d'.frac_rep.length := by
          have : d'.frac_rep ≠ [] := fun h => hW' (by rw [h]; rfl)
          exact List.length_pos.mpr this
        have hP : (1 : ℚ) < 10 ^ d'.frac_rep.length := by
          calc (1 : ℚ) < 10 := by norm_num
          _ = 10 ^ 1 := (pow_one 10).symm
          _ ≤ 10 ^ d'.frac_rep.length := pow_le_pow_right (by norm_num) hb
        have hD : (0 : ℚ) < (10 ^ d'.frac_rep.length - 1) * 10 ^ d'.frac_once.length := by
          have hX : (0 : ℚ) < 10 ^ d'.frac_once.length := by positivity
          nlinarith
        rw [div_eq_div_iff (ne_of_gt hD) (ne_of_gt hD)] at hfv
        have hnum : (valD d.frac_once : ℚ) * (10 ^ d'.frac_rep.length - 1) +
            valD d.frac_rep = (valD d'.frac_once : ℚ) * (10 ^ d'.frac_rep.length - 1) +
            valD d'.frac_rep := mul_right_cancel₀ (ne_of_gt hD) hfv
        have hWle : (valD d.frac_rep : ℚ) ≤ 10 ^ d'.frac_rep.length - 1 := by
          have := valD_lt d.frac_rep hd.1.2
          rw [hlen.2] at this
          have hc : (valD d.frac_rep : ℚ) + 1 ≤ 10 ^ d'.frac_rep.length := by
            exact_mod_cast this
          linarith
        have hWle' : (valD d'.frac_rep : ℚ) ≤ 10 ^ d'.frac_rep.length - 1 := by
          have := valD_lt d'.frac_rep hd'.1.2
          have hc : (valD d'.frac_rep : ℚ) + 1 ≤ 10 ^ d'.frac_rep.length := by
            exact_mod_cast this
          linarith
        have hWge : (1 : ℚ) ≤ valD d.frac_rep := by
          have := Nat.one_le_iff_ne_zero.mpr hW
          exact_mod_cast this
        have hWge' : (1 : ℚ) ≤ valD d'.frac_rep := by
          have := Nat.one_le_iff_ne_zero.mpr hW'
          exact_mod_cast this
        have hVeq : valD d.frac_once = valD d'.frac_once := by
          rcases lt_trichotomy (valD d.frac_once) (valD d'.frac_once) with hlt | heq | hgt
          · exfalso
            have hq : (valD d.frac_once : ℚ) + 1 ≤ valD d'.frac_once := by
              exact_mod_cast hlt
            nlinarith
          · exact heq
          · exfalso
            have hq : (valD d'.frac_once : ℚ) + 1 ≤ valD d.frac_once := by
              exact_mod_cast hgt
            nlinarith
        have hWeq : valD d.frac_rep = valD d'.frac_rep := by
          have hc : (valD d.frac_once : ℚ) = valD d'.frac_once := by
            exact_mod_cast hVeq
          have : (valD d.frac_rep : ℚ) = valD d'.frac_rep := by
            rw [hc] at hnum
            linarith
          exact_mod_cast this
        exact ⟨valD_inj _ _ hlen.1 hd.1.1 hd'.1.1 hVeq,
          valD_inj _ _ hlen.2 hd.1.2 hd'.1.2 hWeq⟩
    calc d = ⟨d.sign, d.int, d.frac_once, d.frac_rep⟩ := rfl
    _ = ⟨d'.sign, d'.int, d'.frac_once, d'.frac_rep⟩ := by
        rw [hs, hint, hdig.1, hdig.2]
    _ = d' := rfl

end FeatherRepl

namespace FeatherRepl

/-- What `fromRat` produces in the nonzero case: the digit blocks of the
minimal cycle pair of the long-division orbit of the fractional part. -/
theorem fromRat_spec (q : ℚ) (hq : q ≠ 0) :
    ∃ mu lam : ℕ, 1 ≤ lam ∧
      (fracStep ((Int.fract |q|).den : ℤ))^[mu + lam]
          ((Int.fract |q|).num % ((Int.fract |q|).den : ℤ)) =
        (fracStep ((Int.fract |q|).den : ℤ))^[mu]
          ((Int.fract |q|).num % ((Int.fract |q|).den : ℤ)) ∧
      (∀ mu' lam', 1 ≤ lam' →
        (fracStep ((Int.fract |q|).den : ℤ))^[mu' + lam']
            ((Int.fract |q|).num % ((Int.fract |q|).den : ℤ)) =
          (fracStep ((Int.fract |q|).den : ℤ))^[mu']
            ((Int.fract |q|).num % ((Int.fract |q|).den : ℤ)) →
        mu ≤ mu' ∧ (mu' = mu → lam ≤ lam')) ∧
      DecimalTuple.fromRat q =
        ⟨if q < 0 then Sign.Minus else Sign.Plus, |q|.num.toNat / |q|.den,
          (List.range mu).map (digSeq (Int.fract |q|).num ((Int.fract |q|).den : ℤ)),
          if (List.range lam).map
              (fun k => digSeq (Int.fract |q|).num ((Int.fract |q|).den : ℤ) (mu + k)) = [0]
            then []
            else (List.range lam).map
              (fun k => digSeq (Int.fract |q|).num ((Int.fract |q|).den : ℤ) (mu + k))⟩ := by
  have habs0 : 0 < |q| := abs_pos.mpr hq
  have hnn : 0 ≤ |q|.num := Rat.num_nonneg.mpr habs0.le
  have hiZ : ((|q|.num.toNat / |q|.den : ℕ) : ℤ) = ⌊|q|⌋ := by
    conv_rhs => rw [← Rat.num_div_den |q|]
    rw [Rat.floor_intCast_div_natCast, Int.natCast_div, Int.toNat_of_nonneg hnn]
  have hiQ : ((|q|.num.toNat / |q|.den : ℕ) : ℚ) = ((⌊|q|⌋ : ℤ) : ℚ) := by
    rw [← hiZ]
    norm_cast
  have hfr : |q| - ((|q|.num.toNat / |q|.den : ℕ) : ℚ) = Int.fract |q| := by
    rw [hiQ]
    exact Int.self_sub_floor |q|
  have hfnn : 0 ≤ Int.fract |q| := Int.fract_nonneg _
  have hflt : Int.fract |q| < 1 := Int.fract_lt_one _
  have hfdpos : (0 : ℤ) < ((Int.fract |q|).den : ℤ) := by
    exact_mod_cast (Int.fract |q|).pos
  have hfnum : 0 ≤ (Int.fract |q|).num := Rat.num_nonneg.mpr hfnn
  have hfnd : (Int.fract |q|).num < ((Int.fract |q|).den : ℤ) :=
    Rat.lt_one_iff_num_lt_denom.mp hflt
  obtain ⟨mu, lam, h1, hcyc, hmin, hout⟩ :=
    fromRatCore_eq (Int.fract |q|).num ((Int.fract |q|).den : ℤ) hfdpos hfnum hfnd
  rw [Int.toNat_natCast] at hout
  rw [← hfr] at hout
  have hasm := fromRat_eq_assemble q hq _ _ hout
  rw [hfr] at hasm
  exact ⟨mu, lam, h1, hcyc, hmin, hasm⟩

/-- If a valid digit pair represents `fnum/fden` with `fden` coprime to
`fnum`, its length pair bounds the minimal cycle pair (with a cleared zero
block) from above in the lexicographic order. -/
theorem cycle_min_of_digits (fnum fden : ℤ) (hden : 0 < fden) (hco : IsCoprime fden fnum)
    (mu lam : ℕ) (hlam : 1 ≤ lam)
    (hmin : ∀ mu' lam', 1 ≤ lam' →
      (fracStep fden)^[mu' + lam'] (fnum % fden) = (fracStep fden)^[mu'] (fnum % fden) →
      mu ≤ mu' ∧ (mu' = mu → lam ≤ lam'))
    (o r : List ℕ)
    (hval : fracVal o r = (fnum : ℚ) / (fden : ℚ)) :
    lenPairLe (mu,
      (if (List.range lam).map (fun k => digSeq fnum fden (mu + k)) = [0] then ([] : List ℕ)
        else (List.range lam).map (fun k => digSeq fnum fden (mu + k))).length)
      (o.length, r.length) := by
  have hdQ : ((fden : ℚ)) ≠ 0 := by
    exact_mod_cast ne_of_gt hden
  have hX : ((10 : ℚ) ^ o.length) ≠ 0 := by positivity
  have hRle : (if (List.range lam).map (fun k => digSeq fnum fden (mu + k)) = [0]
      then ([] : List ℕ)
      else (List.range lam).map (fun k => digSeq fnum fden (mu + k))).length ≤ lam := by
    by_cases hc : (List.range lam).map (fun k => digSeq fnum fden (mu + k)) = [0]
    · rw [if_pos hc]
      exact Nat.zero_le _
    · rw [if_neg hc]
      simp
  by_cases hW : valD r = 0
  · have he : (valD o : ℚ) / 10 ^ o.length = (fnum : ℚ) / (fden : ℚ) := by
      rw [← hval, fracVal, if_pos hW, add_zero]
    have heZ : (valD o : ℤ) * fden = fnum * 10 ^ o.length := by
      have h1 := (div_eq_div_iff hX hdQ).mp he
      exact_mod_cast h1
    have hx0 : (fracStep fden)^[o.length] (fnum % fden) = 0 := by
      rw [fracStep_iterate, ← heZ]
      exact Int.mul_emod_left _ _
    have hcp : (fracStep fden)^[o.length + 1] (fnum % fden) =
        (fracStep fden)^[o.length] (fnum % fden) := by
      rw [Function.iterate_succ_apply', hx0]
      simp [fracStep]
    obtain ⟨hle, himp⟩ := hmin o.length 1 le_rfl hcp
    rcases Nat.lt_or_ge mu o.length with hlt | hge
    · exact Or.inl hlt
    · have hmueq : mu = o.length := le_antisymm hle hge
      have hlam1 : lam = 1 := le_antisymm (himp hmueq.symm) hlam
      have hxmu : (fracStep fden)^[mu] (fnum % fden) = 0 := by
        rw [hmueq]
        exact hx0
      have hd0 : digSeq fnum fden mu = 0 := by
        rw [digSeq, hxmu]
        simp
      have hblock : (List.range lam).map (fun k => digSeq fnum fden (mu + k)) = [0] := by
        subst hlam1
        simp [List.range_succ, hd0]
      rw [if_pos hblock]
      exact Or.inr ⟨hmueq, Nat.zero_le _⟩
  · have hrne : r ≠ [] := fun h => hW (by rw [h]; rfl)
    have hb : 1 ≤ r.length := List.length_pos.mpr hrne
    have hP : (1 : ℚ) < 10 ^ r.length := by
      calc (1 : ℚ) < 10 := by norm_num
      _ = 10 ^ 1 := (pow_one 10).symm
      _ ≤ 10 ^ r.length := pow_le_pow_right (by norm_num) hb
    have hXp : (0 : ℚ) < 10 ^ o.length := by positivity
    have hD0 : ((10 : ℚ) ^ r.length - 1) * 10 ^ o.length ≠ 0 :=
      ne_of_gt (mul_pos (by linarith) hXp)
    have he := (fracVal_ne_zero_eq o r hW).symm.trans hval
    have heZ : ((valD o : ℤ) * (10 ^ r.length - 1) + valD r) * fden =
        fnum * ((10 ^ r.length - 1) * 10 ^ o.length) := by
      have h1 := (div_eq_div_iff hD0 hdQ).mp he
      exact_mod_cast h1
    have hdvd : fden ∣ fnum * (10 ^ o.length * (10 ^ r.length - 1)) :=
      ⟨(valD o : ℤ) * (10 ^ r.length - 1) + valD r, by linear_combination -heZ⟩
    have hdvd2 : fden ∣ 10 ^ o.length * (10 ^ r.length - 1) :=
      hco.dvd_of_dvd_mul_left hdvd
    have hcp : (fracStep fden)^[o.length + r.length] (fnum % fden) =
        (fracStep fden)^[o.length] (fnum % fden) := by
      rw [fracStep_iterate, fracStep_iterate]
      rw [Int.emod_eq_emod_iff_emod_sub_eq_zero]
      have hid : fnum * 10 ^ (o.length + r.length) - fnum * 10 ^ o.length =
          fnum * (10 ^ o.length * (10 ^ r.length - 1)) := by ring
      rw [hid]
      exact Int.emod_eq_zero_of_dvd (Dvd.dvd.mul_left hdvd2 fnum)
    obtain ⟨hle, himp⟩ := hmin o.length r.length hb hcp
    rcases Nat.lt_or_ge mu o.length with hlt | hge
    · exact Or.inl hlt
    · have hmueq : mu = o.length := le_antisymm hle hge
      have hlamle : lam ≤ r.length := himp hmueq.symm
      exact Or.inr ⟨hmueq, le_trans hRle hlamle⟩

/-- The zero tuple is normalized. -/
theorem normalForm_zero : NormalForm DecimalTuple.zero := by
  refine ⟨⟨?_, ?_⟩, ?_, ?_, ?_, ?_, ?_⟩
  · intro a ha
    cases ha
  · intro a ha
    cases ha
  · intro h
    cases h
  · intro _
    rfl
  · intro h
    rw [toRat_zero] at h
    exact absurd h (lt_irrefl 0)
  · intro h
    rw [toRat_zero] at h
    exact absurd h (lt_irrefl 0)
  · intro d' _ _
    exact lenPairLe_zero _

end FeatherRepl

namespace FeatherRepl

/-- Every tuple produced by `fromRat` satisfies the normalization
invariants. -/
theorem normalForm_fromRat (q : ℚ) : NormalForm (DecimalTuple.fromRat q) := by
  by_cases hq : q = 0
  · rw [hq, fromRat_zero]
    exact normalForm_zero
  · obtain ⟨mu, lam, hlam, hcyc, hmin, hasm⟩ := fromRat_spec q hq
    have hts : (DecimalTuple.fromRat q).toRat = q := toRat_fromRat q
    have hfdpos : (0 : ℤ) < ((Int.fract |q|).den : ℤ) := by
      exact_mod_cast (Int.fract |q|).pos
    rw [hasm] at hts
    have h1a : ∀ a ∈ (List.range mu).map
        (digSeq (Int.fract |q|).num ((Int.fract |q|).den : ℤ)), a < 10 := by
      intro a ha
      obtain ⟨k, _, hk⟩ := List.mem_map.mp ha
      rw [← hk]
      exact digSeq_lt _ _ hfdpos k
    have h1b : ∀ a ∈ (if (List.range lam).map
          (fun k => digSeq (Int.fract |q|).num ((Int.fract |q|).den : ℤ) (mu + k)) = [0]
        then ([] : List ℕ)
        else (List.range lam).map
          (fun k => digSeq (Int.fract |q|).num ((Int.fract |q|).den : ℤ) (mu + k))),
        a < 10 := by
      by_cases hc : (List.range lam).map
          (fun k => digSeq (Int.fract |q|).num ((Int.fract |q|).den : ℤ) (mu + k)) = [0]
      · rw [if_pos hc]
        intro a ha
        cases ha
      · rw [if_neg hc]
        intro a ha
        obtain ⟨k, _, hk⟩ := List.mem_map.mp ha
        rw [← hk]
        exact digSeq_lt _ _ hfdpos _
    have h2 : (if (List.range lam).map
          (fun k => digSeq (Int.fract |q|).num ((Int.fract |q|).den : ℤ) (mu + k)) = [0]
        then ([] : List ℕ)
        else (List.range lam).map
          (fun k => digSeq (Int.fract |q|).num ((Int.fract |q|).den : ℤ) (mu + k))) ≠ [0] := by
      by_cases hc : (List.range lam).map
          (fun k => digSeq (Int.fract |q|).num ((Int.fract |q|).den : ℤ) (mu + k)) = [0]
      · rw [if_pos hc]
        simp
      · rw [if_neg hc]
        exact hc
    have hco : IsCoprime ((Int.fract |q|).den : ℤ) (Int.fract |q|).num := by
      rw [Int.isCoprime_iff_gcd_eq_one]
      have hred := (Int.fract |q|).reduced
      rw [Int.gcd, Int.natAbs_ofNat]
      exact hred.symm
    have h6 : ∀ d' : DecimalTuple, ValidDigits d' →
        d'.toRat = DecimalTuple.toRat
          ⟨if q < 0 then Sign.Minus else Sign.Plus, |q|.num.toNat / |q|.den,
            (List.range mu).map (digSeq (Int.fract |q|).num ((Int.fract |q|).den : ℤ)),
            if (List.range lam).map
                (fun k => digSeq (Int.fract |q|).num ((Int.fract |q|).den : ℤ) (mu + k)) = [0]
              then []
              else (List.range lam).map
                (fun k => digSeq (Int.fract |q|).num ((Int.fract |q|).den : ℤ) (mu + k))⟩ →
        lenPairLe
          (((List.range mu).map
            (digSeq (Int.fract |q|).num ((Int.fract |q|).den : ℤ))).length,
           (if (List.range lam).map
                (fun k => digSeq (Int.fract |q|).num ((Int.fract |q|).den : ℤ) (mu + k)) = [0]
              then ([] : List ℕ)
              else (List.range lam).map
                (fun k => digSeq (Int.fract |q|).num ((Int.fract |q|).den : ℤ) (mu + k))).length)
          (d'.frac_once.length, d'.frac_rep.length) := by
      intro d' hvd' hval'
      have hq' : d'.toRat = q := hval'.trans hts
      have hL1len : ((List.range mu).map
          (digSeq (Int.fract |q|).num ((Int.fract |q|).den : ℤ))).length = mu := by
        simp
      rw [hL1len]
      have hfv0 := fracVal_nonneg d'.frac_once d'.frac_rep
      have hfv1 := fracVal_le_one d'.frac_once d'.frac_rep hvd'.1 hvd'.2
      have hx0 : (0 : ℚ) ≤ (d'.int : ℚ) + fracVal d'.frac_once d'.frac_rep :=
        add_nonneg (by positivity) hfv0
      have habs : |q| = (d'.int : ℚ) + fracVal d'.frac_once d'.frac_rep := by
        rw [← hq', DecimalTuple.toRat, to_rational_eq]
        by_cases hsm : d'.sign = Sign.Minus
        · rw [if_pos hsm, neg_one_mul, abs_neg, abs_of_nonneg hx0]
        · rw [if_neg hsm, one_mul, abs_of_nonneg hx0]
      by_cases hf1 : fracVal d'.frac_once d'.frac_rep = 1
      · have hint2 : |q| = ((d'.int + 1 : ℕ) : ℚ) := by
          rw [habs, hf1]
          push_cast
          ring
        have hfr0 : Int.fract |q| = 0 := by
          rw [hint2]
          exact Int.fract_natCast _
        have hn0 : (Int.fract |q|).num = 0 := by
          rw [hfr0]
          simp
        have hvz : fracVal ([] : List ℕ) ([] : List ℕ) =
            ((Int.fract |q|).num : ℚ) / (((Int.fract |q|).den : ℤ) : ℚ) := by
          rw [fracVal_nil_nil, hn0]
          norm_num
        have hkey := cycle_min_of_digits (Int.fract |q|).num ((Int.fract |q|).den : ℤ)
          hfdpos hco mu lam hlam hmin [] [] hvz
        rcases hkey with hk | ⟨hk1, hk2⟩
        · exact absurd hk (Nat.not_lt.mpr (Nat.zero_le _))
        · have hmu0 : mu = 0 := hk1
          have hR0 : (if (List.range lam).map
                (fun k => digSeq (Int.fract |q|).num ((Int.fract |q|).den : ℤ) (mu + k)) = [0]
              then ([] : List ℕ)
              else (List.range lam).map
                (fun k => digSeq (Int.fract |q|).num ((Int.fract |q|).den : ℤ) (mu + k))).length
              = 0 := Nat.le_zero.mp hk2
          rw [hR0, hmu0]
          exact lenPairLe_zero _
      · have hflt' : fracVal d'.frac_once d'.frac_rep < 1 := lt_of_le_of_ne hfv1 hf1
        have hfloor : ⌊|q|⌋ = (d'.int : ℤ) := by
          rw [habs, add_comm, Int.floor_add_nat,
            Int.floor_eq_zero_iff.mpr (Set.mem_Ico.mpr ⟨hfv0, hflt'⟩), zero_add]
        have hfract : Int.fract |q| = fracVal d'.frac_once d'.frac_rep := by
          rw [Int.fract, hfloor, habs]
          push_cast
          ring
        have hvz : fracVal d'.frac_once d'.frac_rep =
            ((Int.fract |q|).num : ℚ) / (((Int.fract |q|).den : ℤ) : ℚ) := by
          rw [← hfract]
          push_cast
          exact (Rat.num_div_den _).symm
        exact cycle_min_of_digits (Int.fract |q|).num ((Int.fract |q|).den : ℤ)
          hfdpos hco mu lam hlam hmin d'.frac_once d'.frac_rep hvz
    rw [hasm]
    refine ⟨⟨h1a, h1b⟩, h2, ?_, ?_, ?_, h6⟩
    · intro h
      exact absurd (hts.symm.trans h) hq
    · intro h
      rw [hts] at h
      show (if q < 0 then Sign.Minus else Sign.Plus) = Sign.Plus
      rw [if_neg (lt_asymm h)]
    · intro h
      rw [hts] at h
      show (if q < 0 then Sign.Minus else Sign.Plus) = Sign.Minus
      rw [if_pos h]

end FeatherRepl

namespace FeatherRepl

/-- Every successfully parsed tuple is a `fromRat` output, hence
normalized. -/
theorem fromStr_normalForm (s : String) (d : DecimalTuple)
    (h : DecimalTuple.fromStr s = some d) : NormalForm d := by
  unfold DecimalTuple.fromStr at h
  repeat' (first | split at h | dsimp only at h)
  all_goals
    first
      | exact Option.noConfusion h
      | (have hd := Option.some.inj h
         rw [← hd, DecimalTuple.new]
         exact normalForm_fromRat _)

/-- C2: for every `DecimalTuple` satisfying the normalization invariants,
converting it to a rational and back (`DecimalTuple::from(BigRational::from(d))`)
returns the same tuple. -/
theorem decimal_roundtrip (d : DecimalTuple) (h : NormalForm d) :
    DecimalTuple.fromRat d.toRat = d :=
  normalForm_unique (DecimalTuple.fromRat d.toRat) d
    (normalForm_fromRat d.toRat) h (toRat_fromRat d.toRat)

theorem decimal_roundtrip_witness :
    DecimalTuple.fromRat DecimalTuple.zero.toRat = DecimalTuple.zero :=
  decimal_roundtrip DecimalTuple.zero normalForm_zero

end FeatherRepl

namespace FeatherRepl

theorem to_rational_09rep : DecimalTuple.to_rational Sign.Plus 0 [] [9] = 1 := by
  rw [to_rational_eq, if_neg (by decide : ¬ Sign.Plus = Sign.Minus), one_mul]
  norm_num [fracVal, valD]

theorem to_rational_099rep : DecimalTuple.to_rational Sign.Plus 0 [9] [9] = 1 := by
  rw [to_rational_eq, if_neg (by decide : ¬ Sign.Plus = Sign.Minus), one_mul]
  norm_num [fracVal, valD]

theorem to_rational_0199rep : DecimalTuple.to_rational Sign.Plus 0 [1, 9, 9] [9] = 1 / 5 := by
  rw [to_rational_eq, if_neg (by decide : ¬ Sign.Plus = Sign.Minus), one_mul]
  norm_num [fracVal, valD]

theorem to_rational_02 : DecimalTuple.to_rational Sign.Plus 0 [2] [] = 1 / 5 := by
  rw [to_rational_eq, if_neg (by decide : ¬ Sign.Plus = Sign.Minus), one_mul]
  norm_num [fracVal, valD]

theorem to_rational_01rep : DecimalTuple.to_rational Sign.Plus 0 [1] [1] = 1 / 9 := by
  rw [to_rational_eq, if_neg (by decide : ¬ Sign.Plus = Sign.Minus), one_mul]
  norm_num [fracVal, valD]

theorem to_rational_011rep : DecimalTuple.to_rational Sign.Plus 0 [] [1, 1] = 1 / 9 := by
  rw [to_rational_eq, if_neg (by decide : ¬ Sign.Plus = Sign.Minus), one_mul]
  norm_num [fracVal, valD]

theorem fromRat_one : DecimalTuple.fromRat (1 : ℚ) = ⟨Sign.Plus, 1, [], []⟩ := by
  have h := fromRat_natCast 1 one_ne_zero
  rwa [Nat.cast_one] at h

theorem fromRatCore_one_five : fromRatCore 1 5 6 = some ([2], []) := by decide

theorem fromRatCore_one_nine : fromRatCore 1 9 10 = some ([], [1]) := by decide

theorem fromRat_fifth : DecimalTuple.fromRat (1 / 5 : ℚ) = ⟨Sign.Plus, 0, [2], []⟩ := by
  have h := fromRat_eq_of_pos (1 / 5 : ℚ) 0 1 5 [2] [] (by norm_num) (by norm_num)
    (by norm_num) (by decide) (by exact_mod_cast fromRatCore_one_five)
  exact h

theorem fromRat_ninth : DecimalTuple.fromRat (1 / 9 : ℚ) = ⟨Sign.Plus, 0, [], [1]⟩ := by
  have h := fromRat_eq_of_pos (1 / 9 : ℚ) 0 1 9 [] [1] (by norm_num) (by norm_num)
    (by norm_num) (by decide) (by exact_mod_cast fromRatCore_one_nine)
  exact h

theorem fromStr_09rep : DecimalTuple.fromStr "0.(9)" = some ⟨Sign.Plus, 1, [], []⟩ := by
  have h : DecimalTuple.fromStr "0.(9)" =
      some (DecimalTuple.new Sign.Plus 0 [] [9]) := rfl
  rw [h, DecimalTuple.new, to_rational_09rep, fromRat_one]

theorem fromStr_099rep : DecimalTuple.fromStr "0.9(9)" = some ⟨Sign.Plus, 1, [], []⟩ := by
  have h : DecimalTuple.fromStr "0.9(9)" =
      some (DecimalTuple.new Sign.Plus 0 [9] [9]) := rfl
  rw [h, DecimalTuple.new, to_rational_099rep, fromRat_one]

theorem fromStr_one : DecimalTuple.fromStr "1" = some ⟨Sign.Plus, 1, [], []⟩ := by
  have h : DecimalTuple.fromStr "1" =
      some (DecimalTuple.new Sign.Plus 1 [] []) := rfl
  rw [h, DecimalTuple.new, to_rational_nat, if_neg (by decide : ¬ Sign.Plus = Sign.Minus),
    Nat.cast_one, fromRat_one]

theorem fromStr_0199rep : DecimalTuple.fromStr "0.199(9)" = some ⟨Sign.Plus, 0, [2], []⟩ := by
  have h : DecimalTuple.fromStr "0.199(9)" =
      some (DecimalTuple.new Sign.Plus 0 [1, 9, 9] [9]) := rfl
  rw [h, DecimalTuple.new, to_rational_0199rep, fromRat_fifth]

theorem fromStr_02 : DecimalTuple.fromStr "0.2" = some ⟨Sign.Plus, 0, [2], []⟩ := by
  have h : DecimalTuple.fromStr "0.2" =
      some (DecimalTuple.new Sign.Plus 0 [2] []) := rfl
  rw [h, DecimalTuple.new, to_rational_02, fromRat_fifth]

theorem fromStr_01rep : DecimalTuple.fromStr "0.1(1)" = some ⟨Sign.Plus, 0, [], [1]⟩ := by
  have h : DecimalTuple.fromStr "0.1(1)" =
      some (DecimalTuple.new Sign.Plus 0 [1] [1]) := rfl
  rw [h, DecimalTuple.new, to_rational_01rep, fromRat_ninth]

theorem fromStr_011rep : DecimalTuple.fromStr "0.(11)" = some ⟨Sign.Plus, 0, [], [1]⟩ := by
  have h : DecimalTuple.fromStr "0.(11)" =
      some (DecimalTuple.new Sign.Plus 0 [] [1, 1]) := rfl
  rw [h, DecimalTuple.new, to_rational_011rep, fromRat_ninth]

/-- C6: every tuple produced by the core — by conversion from a rational or
by string parsing — is canonical: its repeating block is never `[0]` and its
`(frac_once, frac_rep)` length pair is lexicographically minimal among all
digit-valid representations of the same rational; in particular `"0.(9)"`,
`"0.9(9)"` and `"1"` all parse to the tuple `+1`, `"0.199(9)"` and `"0.2"`
both parse to `+0.2`, and `"0.1(1)"` and `"0.(11)"` both parse to integer
part `0` with `frac_rep = [1]`. -/
theorem decimal_canonical :
    (∀ q : ℚ, (DecimalTuple.fromRat q).frac_rep ≠ [0] ∧
      ∀ d' : DecimalTuple, ValidDigits d' → d'.toRat = (DecimalTuple.fromRat q).toRat →
        lenPairLe ((DecimalTuple.fromRat q).frac_once.length,
            (DecimalTuple.fromRat q).frac_rep.length)
          (d'.frac_once.length, d'.frac_rep.length)) ∧
    (∀ (s : String) (d : DecimalTuple), DecimalTuple.fromStr s = some d →
      d.frac_rep ≠ [0] ∧
      ∀ d' : DecimalTuple, ValidDigits d' → d'.toRat = d.toRat →
        lenPairLe (d.frac_once.length, d.frac_rep.length)
          (d'.frac_once.length, d'.frac_rep.length)) ∧
    DecimalTuple.fromStr "0.(9)" = some ⟨Sign.Plus, 1, [], []⟩ ∧
    DecimalTuple.fromStr "0.9(9)" = some ⟨Sign.Plus, 1, [], []⟩ ∧
    DecimalTuple.fromStr "1" = some ⟨Sign.Plus, 1, [], []⟩ ∧
    DecimalTuple.fromStr "0.199(9)" = some ⟨Sign.Plus, 0, [2], []⟩ ∧
    DecimalTuple.fromStr "0.2" = some ⟨Sign.Plus, 0, [2], []⟩ ∧
    DecimalTuple.fromStr "0.1(1)" = some ⟨Sign.Plus, 0, [], [1]⟩ ∧
    DecimalTuple.fromStr "0.(11)" = some ⟨Sign.Plus, 0, [], [1]⟩ := by
  refine ⟨?_, ?_, fromStr_09rep, fromStr_099rep, fromStr_one, fromStr_0199rep,
    fromStr_02, fromStr_01rep, fromStr_011rep⟩
  · intro q
    exact ⟨(normalForm_fromRat q).2.1, (normalForm_fromRat q).2.2.2.2.2⟩
  · intro s d h
    exact ⟨(fromStr_normalForm s d h).2.1, (fromStr_normalForm s d h).2.2.2.2.2⟩

end FeatherRepl
